import Mathlib

/-!
Shallow embedding of the mina-indexer witness-tree core.

Sources embedded from the repository: `src/lib.rs` (constants),
`src/state/mod.rs` (the `IndexerState` dispatch, `add_block`,
`update_canonical`, `root_extension`, `dangling_extension`,
`update_dangling`, `prune_root_branch`, `is_length_within_root_bounds`,
`is_block_already_in_db`), `src/state/ledger/account.rs` (`Account`),
`src/store.rs` (the block/ledger columns of the embedded KV), and
`src/server/mod.rs` (the `best_chain` slice in `handle_conn`).

The repository's `state/branch.rs`, `block` module and
`state/ledger/{command,diff}.rs` are not present under `src/`; those
definitions are modelled from the specification and are marked
`Modelled from the spec:` in their doc comments.

Block hashes and public keys are abstracted as `Nat`; the `id_tree`
`NodeId` of a node is identified with the `state_hash` of its block
(hashes are unique across the forest by the forest invariant, and the
spec requires node identifiers stable across removals).  Machine
integers (`u32`/`u64` counters, balances, nonces) are modelled as `Nat`;
none of the claims under examination exercises wrap-around behaviour.
-/

namespace MinaIndexer

/-- `MAINNET_CANONICAL_THRESHOLD` from `src/lib.rs`. -/
def MAINNET_CANONICAL_THRESHOLD : Nat := 10

/-- `PRUNE_INTERVAL_DEFAULT` from `src/lib.rs`. -/
def PRUNE_INTERVAL_DEFAULT : Nat := 10

/-- Association-list lookup, modelling keyed lookup in a `HashMap` or a
RocksDB column family. -/
def lookupA {α : Type} (l : List (Nat × α)) (k : Nat) : Option α :=
  match l.find? (fun kv => kv.1 == k) with
  | some kv => some kv.2
  | none => none

/-- Association-list insert-or-replace, modelling `HashMap::insert` /
`put_cf` (later writes to the same key overwrite). -/
def insertA {α : Type} (l : List (Nat × α)) (k : Nat) (v : α) : List (Nat × α) :=
  match l with
  | [] => [(k, v)]
  | kv :: rest => if kv.1 == k then (k, v) :: rest else kv :: insertA rest k v

/-- `Account` from `src/state/ledger/account.rs`; `Amount`/`Nonce`
newtypes are inlined as `Nat`, `PublicKey` abstracted as `Nat`. -/
structure Account where
  public_key : Nat
  balance : Nat
  nonce : Nat
  delegate : Option Nat
deriving DecidableEq, Repr, Inhabited

/-- `Account::empty` from `src/state/ledger/account.rs`. -/
def Account.empty (pk : Nat) : Account :=
  { public_key := pk, balance := 0, nonce := 0, delegate := none }

/-- `Account::from_payment` from `src/state/ledger/account.rs`. -/
def Account.from_payment (pre : Account) (amount : Nat) (deduction : Bool) :
    Option Account :=
  if deduction && decide (amount > pre.balance) then none
  else
    some { public_key := pre.public_key,
           balance := if deduction then pre.balance - amount else pre.balance + amount,
           nonce := pre.nonce + 1,
           delegate := pre.delegate }

/-- `Account::from_coinbase` from `src/state/ledger/account.rs`. -/
def Account.from_coinbase (pre : Account) (amount : Nat) : Account :=
  { public_key := pre.public_key,
    balance := pre.balance + amount,
    nonce := pre.nonce,
    delegate := pre.delegate }

/-- `Account::from_fee` from `src/state/ledger/account.rs`. -/
def Account.from_fee (pre : Account) (amount : Nat) (deduction : Bool) :
    Option Account :=
  if deduction && decide (amount > pre.balance) then none
  else
    some { public_key := pre.public_key,
           balance := if deduction then pre.balance - amount else pre.balance + amount,
           nonce := pre.nonce,
           delegate := pre.delegate }

/-- `Account::from_delegation` from `src/state/ledger/account.rs`. -/
def Account.from_delegation (pre : Account) (delegate : Nat) : Account :=
  { public_key := pre.public_key,
    balance := pre.balance,
    nonce := pre.nonce + 1,
    delegate := some delegate }

/-- Modelled from the spec: the per-block commands (`command.rs` is not
under `src/`) — payments, delegations, fee transfers and coinbases. -/
inductive Command
  | payment (source receiver : Nat) (amount : Nat)
  | delegation (delegator delegate : Nat)
  | fee_transfer (receiver : Nat) (amount : Nat)
  | coinbase (receiver : Nat) (amount : Nat)
deriving DecidableEq, Repr

/-- Modelled from the spec: a `LedgerDiff` (`diff.rs` is not under
`src/`) is the ordered list of per-command effects of one block. -/
abbrev LedgerDiff := List Command

/-- Modelled from the spec: a `Ledger` maps public keys to accounts. -/
abbrev Ledger := List (Nat × Account)

/-- Modelled from the spec: application of one command effect to the
ledger.  Credits to absent accounts auto-create a zero-initialized
account; delegations to absent delegators are errors; a debit fails on
insufficient balance. -/
def applyCommand (l : Ledger) (c : Command) : Option Ledger :=
  match c with
  | Command.payment src rcv amount =>
    match Account.from_payment ((lookupA l src).getD (Account.empty src)) amount true with
    | none => none
    | some a1 =>
      let l1 := insertA l src a1
      match Account.from_payment ((lookupA l1 rcv).getD (Account.empty rcv)) amount false with
      | none => none
      | some a2 => some (insertA l1 rcv a2)
  | Command.delegation dgr dge =>
    match lookupA l dgr with
    | none => none
    | some pre => some (insertA l dgr (Account.from_delegation pre dge))
  | Command.fee_transfer rcv amount =>
    match Account.from_fee ((lookupA l rcv).getD (Account.empty rcv)) amount false with
    | none => none
    | some a => some (insertA l rcv a)
  | Command.coinbase rcv amount =>
    some (insertA l rcv (Account.from_coinbase ((lookupA l rcv).getD (Account.empty rcv)) amount))

/-- Modelled from the spec: `Ledger::apply_diff` applies the listed
effects in order, failing if any effect fails. -/
def applyDiff (l : Ledger) (d : LedgerDiff) : Option Ledger :=
  d.foldlM applyCommand l

/-- Modelled from the spec: the fields of a `PrecomputedBlock` the core
reads (the `block` module is not under `src/`). -/
structure PrecomputedBlock where
  state_hash : Nat
  parent_hash : Nat
  blockchain_length : Option Nat
  commands : List Command
deriving DecidableEq, Repr, Inhabited

/-- Modelled from the spec: `LedgerDiff::from_block` projects commands
in their block order into the effect list; the projection is total. -/
def LedgerDiff.from_precomputed_block (pb : PrecomputedBlock) : LedgerDiff :=
  pb.commands

/-- `Canonicity` from `src/state/mod.rs`. -/
inductive Canonicity
  | Canonical
  | Orphaned
  | Pending
deriving DecidableEq, Repr

/-- Modelled from the spec: the in-tree block summary
`{ state_hash, parent_hash, blockchain_length, height }` (`height` is 1
at a branch root, +1 per child, stored at insertion time). -/
structure Block where
  state_hash : Nat
  parent_hash : Nat
  blockchain_length : Option Nat
  height : Nat
deriving DecidableEq, Repr

instance : Inhabited Block := ⟨{ state_hash := 0, parent_hash := 0, blockchain_length := none, height := 0 }⟩

/-- Summary projection of a `PrecomputedBlock` at a given height. -/
def Block.ofPrecomputed (pb : PrecomputedBlock) (height : Nat) : Block :=
  { state_hash := pb.state_hash, parent_hash := pb.parent_hash,
    blockchain_length := pb.blockchain_length, height := height }

/-- Modelled from the spec: a `Branch` (`state/branch.rs` is not under
`src/`) is a rooted tree of block summaries.  The tree structure is
carried by the `parent_hash` links between the listed blocks; the node
id of a node is the `state_hash` of its block. -/
structure Branch where
  root : Nat
  blocks : List Block
deriving DecidableEq, Repr

instance : Inhabited Branch := ⟨{ root := 0, blocks := [] }⟩

/-- Node lookup by hash within a branch. -/
def Branch.lookup (br : Branch) (h : Nat) : Option Block :=
  br.blocks.find? (fun b => b.state_hash == h)

/-- Modelled from the spec: the root block of a branch (`root_block` in
the source; the source unwraps, a well-formed branch contains its
root). -/
def Branch.root_block (br : Branch) : Block :=
  (br.lookup br.root).getD default

/-- Modelled from the spec: `Branch::new` — a fresh branch rooted at the
given precomputed block, with root height 1. -/
def Branch.ofBlock (pb : PrecomputedBlock) : Branch :=
  { root := pb.state_hash, blocks := [Block.ofPrecomputed pb 1] }

/-- Modelled from the spec: `simple_extension` — if some node of the
branch has `state_hash == pb.parent_hash`, insert `pb` as its child (at
the parent's height + 1) and return the new branch and the new node's
id; else return `none`. -/
def Branch.simple_extension (br : Branch) (pb : PrecomputedBlock) :
    Option (Branch × Nat) :=
  match br.lookup pb.parent_hash with
  | some parent =>
    some ({ br with blocks := br.blocks ++ [Block.ofPrecomputed pb (parent.height + 1)] },
          pb.state_hash)
  | none => none

/-- Modelled from the spec: `new_root` — insert `pb` as the new root of
the branch (precondition `pb.state_hash == current_root.parent_hash`);
heights are recomputed top-down from the new root. -/
def Branch.new_root (br : Branch) (pb : PrecomputedBlock) : Branch :=
  { root := pb.state_hash,
    blocks := Block.ofPrecomputed pb 1 ::
      br.blocks.map (fun b => { b with height := b.height + 1 }) }

/-- Modelled from the spec: `merge_on` — splice `other`'s entire tree as
a subtree of `br` at the node `target`, provided
`other.root.parent_hash == target.state_hash`; heights in the grafted
subtree are rebased.  A call violating the precondition is a fatal
`InvariantViolation` in the source; it is modelled as a no-op. -/
def Branch.merge_on (br : Branch) (target : Nat) (other : Branch) : Branch :=
  match br.lookup target with
  | some t =>
    if other.root_block.parent_hash == t.state_hash then
      { br with blocks := br.blocks ++
          other.blocks.map (fun b => { b with height := t.height + b.height }) }
    else br
  | none => br

/-- Fuel-bounded walk up the parent links; `fuel` starts at the number
of blocks in the branch, which bounds the length of any ancestor
chain. -/
def Branch.ancestorsGo (br : Branch) : Nat → Nat → List Nat
  | 0, _ => []
  | fuel + 1, h =>
    match br.lookup h with
    | none => []
    | some blk =>
      match br.lookup blk.parent_hash with
      | none => []
      | some _ => blk.parent_hash :: br.ancestorsGo fuel blk.parent_hash

/-- The ancestor ids of the node `h`, parent first, the branch root
last, the node itself excluded — the semantics of `id_tree`'s
`ancestor_ids` used by `src/state/mod.rs`. -/
def Branch.ancestorIds (br : Branch) (h : Nat) : List Nat :=
  br.ancestorsGo br.blocks.length h

/-- Modelled from the spec: the leaves of a branch — blocks without a
child in the branch. -/
def Branch.leaves (br : Branch) : List Block :=
  br.blocks.filter (fun b => !(br.blocks.any (fun c => c.parent_hash == b.state_hash)))

/-- Modelled from the spec: the §4.A ordering key of a block —
`blockchain_length` first (absent compared as 0, the comparison the
source applies through `unwrap_or(0)`), `state_hash` for tie-break. -/
def Block.key (b : Block) : Nat × Nat :=
  (b.blockchain_length.getD 0, b.state_hash)

/-- Strict lexicographic comparison of §4.A keys. -/
def keyLt (a b : Block) : Bool :=
  a.key.1 < b.key.1 || (a.key.1 == b.key.1 && a.key.2 < b.key.2)

/-- Fold selecting the greatest block under `keyLt` (first seen wins a
tie, but keys are unique on well-formed inputs). -/
def pickBest (l : List Block) : Option Block :=
  l.foldl (fun acc b =>
    match acc with
    | none => some b
    | some a => if keyLt a b then some b else some a) none

/-- Modelled from the spec: `best_tip` — the leaf with the greatest
`(blockchain_length, state_hash)` key. -/
def Branch.best_tip (br : Branch) : Option Block :=
  pickBest br.leaves

/-- `best_tip` with the source's `unwrap` totalized by a default; the
branches reached by the dispatch are non-empty. -/
def Branch.best_tipD (br : Branch) : Block :=
  br.best_tip.getD default

/-- Modelled from the spec: `longest_chain` — the sequence of
`state_hash` from `best_tip` up to the root, root-first. -/
def Branch.longest_chain (br : Branch) : List Nat :=
  match br.best_tip with
  | some tip => (br.ancestorIds tip.state_hash).reverse ++ [tip.state_hash]
  | none => []

/-- Modelled from the spec: `prune_transition_frontier k tip` — keep
only the last `k` ancestors of `tip` (and `tip` itself), make the node
at depth `k` below `tip` the new root and rebase heights; older
ancestors and all off-chain siblings are dropped. -/
def Branch.prune_transition_frontier (br : Branch) (k : Nat) (tip : Block) : Branch :=
  let kept := tip.state_hash :: (br.ancestorIds tip.state_hash).take k
  let newRoot := kept.getLastD tip.state_hash
  match br.lookup newRoot with
  | none => br
  | some nr =>
    { root := newRoot,
      blocks := (br.blocks.filter (fun b => kept.contains b.state_hash)).map
        (fun b => { b with height := b.height + 1 - nr.height }) }

/-- Tree height of a branch (`Branch::height`), the greatest node
height. -/
def Branch.height (br : Branch) : Nat :=
  br.blocks.foldl (fun acc b => max acc b.height) 0

/-- `ExtensionType` from `src/state/mod.rs`. -/
inductive ExtensionType
  | DanglingNew
  | DanglingSimpleForward
  | DanglingSimpleReverse
  | DanglingComplex
  | RootSimple
  | RootComplex
  | BlockNotAdded
deriving DecidableEq, Repr

/-- `ExtensionDirection` from `src/state/mod.rs`. -/
inductive ExtensionDirection
  | Forward
  | Reverse
deriving DecidableEq, Repr

/-- The embedded KV store (`src/store.rs`): `blocks` and `ledgers`
column families keyed by state hash, plus — modelled from the spec,
the `CanonicityStore` implementation is not under `src/` — the
`canonicity` column.  `failWrites` models the store returning errors
from writes. -/
structure Store where
  blocks : List (Nat × PrecomputedBlock)
  ledgers : List (Nat × Ledger)
  canonicity : List (Nat × Canonicity)
  failWrites : Bool
deriving DecidableEq, Repr

/-- `IndexerStore::add_block` from `src/store.rs` (`put_cf` on the
`blocks` column); fails when the KV reports a write failure. -/
def Store.put_block (st : Store) (pb : PrecomputedBlock) : Except String Store :=
  if st.failWrites then Except.error "block write failure"
  else Except.ok { st with blocks := insertA st.blocks pb.state_hash pb }

/-- `IndexerStore::get_block` from `src/store.rs`. -/
def Store.get_block (st : Store) (h : Nat) : Option PrecomputedBlock :=
  lookupA st.blocks h

/-- `IndexerStore::add_ledger` from `src/store.rs`. -/
def Store.put_ledger (st : Store) (h : Nat) (l : Ledger) : Except String Store :=
  if st.failWrites then Except.error "ledger write failure"
  else Except.ok { st with ledgers := insertA st.ledgers h l }

/-- `IndexerStore::get_ledger` from `src/store.rs`. -/
def Store.get_ledger (st : Store) (h : Nat) : Option Ledger :=
  lookupA st.ledgers h

/-- Modelled from the spec: `mark_canonical` — write one canonicity
byte, atomic per key. -/
def Store.add_canonical (st : Store) (h : Nat) : Except String Store :=
  if st.failWrites then Except.error "canonicity write failure"
  else Except.ok { st with canonicity := insertA st.canonicity h Canonicity.Canonical }

/-- Modelled from the spec: `mark_orphaned`. -/
def Store.add_orphaned (st : Store) (h : Nat) : Except String Store :=
  if st.failWrites then Except.error "canonicity write failure"
  else Except.ok { st with canonicity := insertA st.canonicity h Canonicity.Orphaned }

/-- Modelled from the spec: `get_canonicity`. -/
def Store.get_canonicity (st : Store) (h : Nat) : Option Canonicity :=
  lookupA st.canonicity h

/-- `IndexerState` from `src/state/mod.rs` (the fields the witness-tree
logic reads; mode, phase and timestamps are omitted). -/
structure IndexerState where
  best_tip : Nat
  canonical_tip : Nat
  diffs_map : List (Nat × LedgerDiff)
  root_branch : Branch
  dangling_branches : List Branch
  indexer_store : Option Store
  transition_frontier_length : Option Nat
  prune_interval : Option Nat
  ledger_update_freq : Nat
  blocks_processed : Nat
deriving DecidableEq, Repr

/-- `best_tip_block` from `src/state/mod.rs` (the source unwraps the
arena lookup; totalized by a default). -/
def IndexerState.best_tip_block (s : IndexerState) : Block :=
  (s.root_branch.lookup s.best_tip).getD default

/-- `canonical_tip_block` from `src/state/mod.rs`. -/
def IndexerState.canonical_tip_block (s : IndexerState) : Block :=
  (s.root_branch.lookup s.canonical_tip).getD default

/-- `prune_root_branch` from `src/state/mod.rs`: prune only when a
transition frontier length `k` is configured and the root branch height
exceeds `prune_interval * k`. -/
def IndexerState.prune_root_branch (s : IndexerState) : IndexerState :=
  match s.transition_frontier_length with
  | none => s
  | some k =>
    let interval := s.prune_interval.getD PRUNE_INTERVAL_DEFAULT
    if decide (s.root_branch.height > interval * k) then
      { s with root_branch := s.root_branch.prune_transition_frontier k s.best_tip_block }
    else s

/-- `update_best_tip` from `src/state/mod.rs` (the source unwraps
`best_tip_with_id`; an empty root branch is unreachable). -/
def IndexerState.update_best_tip (s : IndexerState) : IndexerState :=
  match s.root_branch.best_tip with
  | some b => { s with best_tip := b.state_hash }
  | none => s

/-- The ancestor walk of `update_canonical` from `src/state/mod.rs`:
while the position `n` is at most `MAINNET_CANONICAL_THRESHOLD`, the
ancestor hash is collected; the first later ancestor is returned as the
new canonical tip and the walk stops. -/
def canonicalWalk : Nat → List Nat → List Nat × Option Nat
  | _, [] => ([], none)
  | n, a :: rest =>
    if n ≤ MAINNET_CANONICAL_THRESHOLD then
      let p := canonicalWalk (n + 1) rest
      (a :: p.1, p.2)
    else ([], some a)

/-- Whether the block `b` lies in the subtree rooted at the node
`rootId` of `br` — the nodes visited by the source's
`traverse_level_order_ids(&old_canonical_tip_id)`. -/
def Branch.inSubtree (br : Branch) (rootId : Nat) (b : Block) : Bool :=
  b.state_hash == rootId || (br.ancestorIds b.state_hash).contains rootId

/-- The canonical-ledger step of `update_canonical` from
`src/state/mod.rs`: when the best tip height is a multiple of
`ledger_update_freq` and a store is present, load the ledger at the old
canonical tip, apply the diffs along the newly canonical segment in
order, and write the result keyed by the new canonical tip.  The source
unwraps the store read and the diff application; those failure points
abort the process and are modelled as keeping the previous value. -/
def ledgerStep (s : IndexerState) (old_hash : Nat) (canonical_hashes : List Nat) :
    IndexerState :=
  if s.best_tip_block.height % s.ledger_update_freq == 0 then
    match s.indexer_store with
    | some st =>
      match st.get_ledger old_hash with
      | some l0 =>
        let l1 := canonical_hashes.foldl (fun l h =>
          match lookupA s.diffs_map h with
          | some d => (applyDiff l d).getD l
          | none => l) l0
        let st1 := (st.put_ledger s.canonical_tip l1).toOption.getD st
        { s with indexer_store := some st1 }
      | none => s
    | none => s
  else s

/-- The canonicity-marking step of `update_canonical` from
`src/state/mod.rs`: every key of `diffs_map` is marked — canonical if it
is among the collected canonical hashes, orphaned otherwise.  The
source unwraps each write. -/
def markStep (diffs : List (Nat × LedgerDiff)) (canonical_hashes : List Nat)
    (st : Store) : Store :=
  diffs.foldl (fun acc kv =>
    if canonical_hashes.contains kv.1 then
      (acc.add_canonical kv.1).toOption.getD acc
    else
      (acc.add_orphaned kv.1).toOption.getD acc) st

/-- `update_canonical` from `src/state/mod.rs`: walk the ancestors of
`best_tip` (the walk excludes `best_tip` itself), collect the first
`MAINNET_CANONICAL_THRESHOLD + 1` of them, make the next one the new
canonical tip when it exists; update the canonical ledger; mark each
`diffs_map` key canonical or orphaned in the store; drop the diffs of
blocks in the old canonical tip's subtree at or beneath the new
canonical tip's height. -/
def IndexerState.update_canonical (s : IndexerState) : IndexerState :=
  let old_id := s.canonical_tip
  let old_hash := s.canonical_tip
  let walk := canonicalWalk 0 (s.root_branch.ancestorIds s.best_tip)
  let canonical_hashes := walk.1.reverse
  let s1 := { s with canonical_tip := walk.2.getD s.canonical_tip }
  let s2 := ledgerStep s1 old_hash canonical_hashes
  let s3 :=
    match s2.indexer_store with
    | some st => { s2 with indexer_store := some (markStep s2.diffs_map canonical_hashes st) }
    | none => s2
  let canonH := s3.canonical_tip_block.height
  { s3 with diffs_map := s3.diffs_map.filter (fun kv =>
      !(s3.root_branch.blocks.any (fun b =>
        s3.root_branch.inSubtree old_id b && b.height ≤ canonH && b.state_hash == kv.1))) }

/-- `is_reverse_extension` from `src/state/mod.rs`. -/
def is_reverse_extension (branch : Branch) (pb : PrecomputedBlock) : Bool :=
  pb.state_hash == branch.root_block.parent_hash

/-- `same_block_added_twice` from `src/state/mod.rs`: an incoming block
whose hash equals a branch root's hash is an error, not a
`BlockNotAdded` result. -/
def same_block_added_twice (branch : Branch) (pb : PrecomputedBlock) : Bool :=
  pb.state_hash == branch.root_block.state_hash

/-- The dangling scan of `root_extension` from `src/state/mod.rs`: for
each dangling branch in index order, merge it onto the new node when the
new block is the parent of its root, recording its index; fail when the
new block duplicates its root.  Returns the updated root branch, the
recorded indices and whether the scan errored (an error aborts the scan
with the merges made so far kept, as the source's `?` does on
`&mut self`). -/
def rootMergeScan (pb : PrecomputedBlock) (newId : Nat) :
    Branch → List Branch → Nat → Branch × List Nat × Bool
  | rb, [], _ => (rb, [], false)
  | rb, d :: rest, i =>
    let merged := is_reverse_extension d pb
    let rb1 := if merged then rb.merge_on newId d else rb
    let rem1 : List Nat := if merged then [i] else []
    if same_block_added_twice d pb then (rb1, rem1, true)
    else
      let r := rootMergeScan pb newId rb1 rest (i + 1)
      (r.1, rem1 ++ r.2.1, r.2.2)

/-- The removal loop of `root_extension`: remove the recorded indices,
adjusting each by the number of prior removals
(`index_to_remove - num_removed`). -/
def removeIndicesAdj (l : List Branch) (idxs : List Nat) : List Branch :=
  (idxs.foldl (fun acc i => (acc.1.eraseIdx (i - acc.2), acc.2 + 1)) (l, 0)).1

/-- `root_extension` from `src/state/mod.rs`. -/
def IndexerState.root_extension (s : IndexerState) (pb : PrecomputedBlock) :
    IndexerState × Except String (Option ExtensionType) :=
  match s.root_branch.simple_extension pb with
  | none => (s, Except.ok none)
  | some (rb, new_node_id) =>
    let s1 := ({ s with root_branch := rb }).update_best_tip.update_canonical
    let scan := rootMergeScan pb new_node_id s1.root_branch s1.dangling_branches 0
    let s2 := { s1 with root_branch := scan.1 }
    if scan.2.2 then
      (s2, Except.error "Same block added twice to the indexer state")
    else if scan.2.1.isEmpty then
      (s2, Except.ok (some ExtensionType.RootSimple))
    else
      let s3 := { s2 with
        dangling_branches := removeIndicesAdj s2.dangling_branches scan.2.1 }
      (s3.update_best_tip.update_canonical, Except.ok (some ExtensionType.RootComplex))

/-- The per-branch loop of `dangling_extension` from
`src/state/mod.rs`.  For each dangling branch in index order: when the
incoming block's length is known, the branch is considered only if the
length window `max_length + 1 ≥ length ∧ length + 1 ≥ min_length`
admits it (lengths absent in the branch count as 0 via `unwrap_or(0)`);
within a considered branch, try reverse extension, then forward
extension, then fail on a duplicate root; when the incoming block's
length is unknown the same checks run unconditionally. -/
def danglingScan (pb : PrecomputedBlock) :
    List Branch → Nat → List Branch × Except String (Option (Nat × Nat × ExtensionDirection))
  | [], _ => ([], Except.ok none)
  | d :: rest, i =>
    let min_length := d.root_block.blockchain_length.getD 0
    let max_length := d.best_tipD.blockchain_length.getD 0
    let considered :=
      match pb.blockchain_length with
      | some length => max_length + 1 ≥ length && length + 1 ≥ min_length
      | none => true
    if considered then
      if is_reverse_extension d pb then
        let d1 := d.new_root pb
        (d1 :: rest, Except.ok (some (i, d1.root, ExtensionDirection.Reverse)))
      else
        match d.simple_extension pb with
        | some (d1, nid) => (d1 :: rest, Except.ok (some (i, nid, ExtensionDirection.Forward)))
        | none =>
          if same_block_added_twice d pb then
            (d :: rest, Except.error "Same block added twice to the indexer state")
          else
            let r := danglingScan pb rest (i + 1)
            (d :: r.1, r.2)
    else
      let r := danglingScan pb rest (i + 1)
      (d :: r.1, r.2)

/-- The length window of `dangling_extension` from `src/state/mod.rs`
as a standalone predicate: the condition under which a dangling branch
is considered for the incoming block. -/
def danglingWindowOk (d : Branch) (pb : PrecomputedBlock) : Bool :=
  match pb.blockchain_length with
  | some length =>
    d.best_tipD.blockchain_length.getD 0 + 1 ≥ length &&
      length + 1 ≥ d.root_block.blockchain_length.getD 0
  | none => true

/-- `dangling_extension` from `src/state/mod.rs`. -/
def IndexerState.dangling_extension (s : IndexerState) (pb : PrecomputedBlock) :
    IndexerState × Except String (Option (Nat × Nat × ExtensionDirection)) :=
  let r := danglingScan pb s.dangling_branches 0
  ({ s with dangling_branches := r.1 }, r.2)

/-- The merge loop of `update_dangling` from `src/state/mod.rs`,
including the source's index arithmetic: after the extended branch at
position `ei` was removed, the branch originally at position `p` is
accessed at `p - n - 1` when `ei < p` and at `p` otherwise, where `n`
counts prior loop iterations.  An out-of-range access panics in the
source; it is modelled as skipping the iteration. -/
def mergeLoop (newId : Nat) (ei : Nat) :
    Branch → List Branch → List Nat → Nat → Branch × List Branch
  | ext, ds, [], _ => (ext, ds)
  | ext, ds, p :: rest, n =>
    let index := if ei < p then p - n - 1 else p
    match ds.get? index with
    | some b => mergeLoop newId ei (ext.merge_on newId b) (ds.eraseIdx index) rest (n + 1)
    | none => mergeLoop newId ei ext ds rest (n + 1)

/-- `update_dangling` from `src/state/mod.rs`: collect the indices of
dangling branches whose root's parent is the new block; if none, report
the simple extension; otherwise remove the extended branch, merge each
collected branch onto the new node through the index arithmetic of
`mergeLoop`, and push the extended branch back at the end of the
list. -/
def IndexerState.update_dangling (s : IndexerState) (pb : PrecomputedBlock)
    (extended_branch_index : Nat) (new_node_id : Nat) (direction : ExtensionDirection) :
    IndexerState × Except String ExtensionType :=
  let branches_to_update :=
    (s.dangling_branches.enum.filter
      (fun x => pb.state_hash == x.2.root_block.parent_hash)).map (fun x => x.1)
  if branches_to_update.isEmpty then
    (s, Except.ok (match direction with
      | ExtensionDirection.Forward => ExtensionType.DanglingSimpleForward
      | ExtensionDirection.Reverse => ExtensionType.DanglingSimpleReverse))
  else
    let extended := (s.dangling_branches.get? extended_branch_index).getD default
    let ds0 := s.dangling_branches.eraseIdx extended_branch_index
    let r := mergeLoop new_node_id extended_branch_index extended ds0 branches_to_update 0
    ({ s with dangling_branches := r.2 ++ [r.1] }, Except.ok ExtensionType.DanglingComplex)

/-- `new_dangling` from `src/state/mod.rs`. -/
def IndexerState.new_dangling (s : IndexerState) (pb : PrecomputedBlock) :
    IndexerState × Except String ExtensionType :=
  ({ s with dangling_branches := s.dangling_branches ++ [Branch.ofBlock pb] },
   Except.ok ExtensionType.DanglingNew)

/-- `is_length_within_root_bounds` from `src/state/mod.rs`. -/
def IndexerState.is_length_within_root_bounds (s : IndexerState)
    (pb : PrecomputedBlock) : Bool :=
  (pb.blockchain_length.isSome &&
    s.best_tip_block.blockchain_length.getD 0 + 1 ≥ pb.blockchain_length.getD 0)
  || pb.blockchain_length.isNone

/-- `is_block_already_in_db` from `src/state/mod.rs`: without a store
the duplicate check defaults to false. -/
def IndexerState.is_block_already_in_db (s : IndexerState)
    (pb : PrecomputedBlock) : Bool :=
  match s.indexer_store with
  | some st => (st.get_block pb.state_hash).isSome
  | none => false

/-- The post-persist part of `add_block` from `src/state/mod.rs`:
increment `blocks_processed`, try a root extension when the length is
within root bounds, then a dangling extension, else record the diff and
open a new dangling branch. -/
def addBlockCore (s : IndexerState) (pb : PrecomputedBlock) :
    IndexerState × Except String ExtensionType :=
  let s0 := { s with blocks_processed := s.blocks_processed + 1 }
  let step1 :=
    if s0.is_length_within_root_bounds pb then s0.root_extension pb
    else (s0, Except.ok none)
  match step1 with
  | (s1, Except.error e) => (s1, Except.error e)
  | (s1, Except.ok (some ext)) => (s1, Except.ok ext)
  | (s1, Except.ok none) =>
    match s1.dangling_extension pb with
    | (s2, Except.error e) => (s2, Except.error e)
    | (s2, Except.ok (some (ei, nid, dir))) => s2.update_dangling pb ei nid dir
    | (s2, Except.ok none) =>
      let d3 := insertA s2.diffs_map pb.state_hash (LedgerDiff.from_precomputed_block pb)
      let s3 := { s2 with diffs_map := d3 }
      s3.new_dangling pb

/-- `add_block` from `src/state/mod.rs`: prune gate, duplicate gate
(`BlockNotAdded` without mutation past the prune), store write (a write
failure fails the call), then the main dispatch. -/
def IndexerState.add_block (s : IndexerState) (pb : PrecomputedBlock) :
    IndexerState × Except String ExtensionType :=
  let sp := s.prune_root_branch
  if sp.is_block_already_in_db pb then (sp, Except.ok ExtensionType.BlockNotAdded)
  else
    match sp.indexer_store with
    | some st =>
      match st.put_block pb with
      | Except.error e => (sp, Except.error e)
      | Except.ok st1 => addBlockCore { sp with indexer_store := some st1 } pb
    | none => addBlockCore sp pb

/-- Fold a list of precomputed blocks through `add_block`, keeping the
state (the per-block results discarded) — the shape of `add_blocks`. -/
def addMany (s : IndexerState) (pbs : List PrecomputedBlock) : IndexerState :=
  pbs.foldl (fun acc pb => (acc.add_block pb).1) s

/-- The `best_chain` slice computed by `handle_conn` in
`src/server/mod.rs`: the handler takes `best_chain[..len - 1]` (the
chain without its final element) and then the first `num` entries of
that, mapping each hash to its stored block; this def returns the hashes
it serves. -/
def bestChainResponse (best_chain : List Nat) (num : Nat) : List Nat :=
  (best_chain.take (best_chain.length - 1)).take num

/-! Concrete forests used to evaluate the definitions at explicit
inputs.  Hashes are small numerals; `1000` stands for a parent hash
absent from every forest. -/

/-- A precomputed block with no commands. -/
def mkPB (h p : Nat) (l : Option Nat) : PrecomputedBlock :=
  { state_hash := h, parent_hash := p, blockchain_length := l, commands := [] }

/-- A branch-root block summary at height 1. -/
def mkRootBlock (h : Nat) (l : Option Nat) : Block :=
  { state_hash := h, parent_hash := 1000, blockchain_length := l, height := 1 }

/-- A fresh state over a single root block — the shape `new_testing`
produces: both tips at the root, no diffs, no dangling branches. -/
def mkTestState (rb : Block) (store : Option Store) : IndexerState :=
  { best_tip := rb.state_hash, canonical_tip := rb.state_hash, diffs_map := [],
    root_branch := { root := rb.state_hash, blocks := [rb] },
    dangling_branches := [], indexer_store := store,
    transition_frontier_length := none, prune_interval := none,
    ledger_update_freq := 7, blocks_processed := 0 }

/-- The linear chain `100 → 101 → 102 → 103` with lengths 1..4. -/
def exChainBranch : Branch :=
  { root := 100,
    blocks := [mkRootBlock 100 (some 1),
               { state_hash := 101, parent_hash := 100, blockchain_length := some 2, height := 2 },
               { state_hash := 102, parent_hash := 101, blockchain_length := some 3, height := 3 },
               { state_hash := 103, parent_hash := 102, blockchain_length := some 4, height := 4 }] }

/-- Eleven consecutive extensions of the root `100`. -/
def exChain11 : List PrecomputedBlock :=
  (List.range 11).map (fun i => mkPB (101 + i) (100 + i) (some (2 + i)))

/-- The state after adding eleven consecutive root extensions to a
fresh state: the best tip reaches height 12. -/
def exHeight12State : IndexerState :=
  addMany (mkTestState (mkRootBlock 100 (some 1)) none) exChain11

/-- One root child of `100`. -/
def exChildPB : PrecomputedBlock := mkPB 101 100 (some 2)

/-- A fresh storeless state rooted at `100`. -/
def exFreshNoStore : IndexerState := mkTestState (mkRootBlock 100 (some 1)) none

/-- `exFreshNoStore` after one `add_block` of `exChildPB`. -/
def exOnce : IndexerState × Except String ExtensionType :=
  exFreshNoStore.add_block exChildPB

/-- `exFreshNoStore` after adding `exChildPB` twice. -/
def exTwice : IndexerState × Except String ExtensionType :=
  exOnce.1.add_block exChildPB

/-- A dangling block whose parent `104` is unknown to the forest. -/
def exDanglingPB : PrecomputedBlock := mkPB 105 104 (some 2)

/-- A storeless state holding one dangling branch rooted at `105`. -/
def exDanglingState : IndexerState :=
  (exFreshNoStore.add_block exDanglingPB).1

/-- Re-adding the dangling root `105` to `exDanglingState`. -/
def exDupDangling : IndexerState × Except String ExtensionType :=
  exDanglingState.add_block exDanglingPB

/-- A root branch with a fork: chain `100 → 101 → 102` and a sibling
`110` of `101`; the best tip is `102`. -/
def exForkBranch : Branch :=
  { root := 100,
    blocks := [mkRootBlock 100 (some 1),
               { state_hash := 101, parent_hash := 100, blockchain_length := some 2, height := 2 },
               { state_hash := 102, parent_hash := 101, blockchain_length := some 3, height := 3 },
               { state_hash := 110, parent_hash := 100, blockchain_length := some 2, height := 2 }] }

/-- A state whose prune gate fires on the next `add_block`
(`k = 1`, `prune_interval = 1`, root branch height 3) and whose store
fails writes. -/
def exPruneFailState : IndexerState :=
  { best_tip := 102, canonical_tip := 100, diffs_map := [],
    root_branch := exForkBranch, dangling_branches := [],
    indexer_store := some { blocks := [], ledgers := [], canonicity := [], failWrites := true },
    transition_frontier_length := some 1, prune_interval := some 1,
    ledger_update_freq := 7, blocks_processed := 0 }

/-- The write-failing `add_block` on `exPruneFailState`. -/
def exPruneFail : IndexerState × Except String ExtensionType :=
  exPruneFailState.add_block (mkPB 103 102 (some 4))

/-- An empty, working store with a genesis ledger at `100`. -/
def exStore : Store :=
  { blocks := [], ledgers := [(100, [])], canonicity := [], failWrites := false }

/-- A fresh state over root `100` with a working store. -/
def exFreshStore : IndexerState := mkTestState (mkRootBlock 100 (some 1)) (some exStore)

/-- `exFreshStore` after a dangling block `200` arrived, then the root
child `101` triggers a canonical promotion pass. -/
def exMarkedState : IndexerState :=
  ((exFreshStore.add_block (mkPB 200 199 (some 5))).1.add_block exChildPB).1

/-- A dangling branch of unknown lengths, rooted at `50` with child
`51`. -/
def exNoLengthBranch : Branch :=
  { root := 50,
    blocks := [{ state_hash := 50, parent_hash := 49, blockchain_length := none, height := 1 },
               { state_hash := 51, parent_hash := 50, blockchain_length := none, height := 2 }] }

/-- A storeless state with `exNoLengthBranch` as its only dangling
branch. -/
def exNoLengthState : IndexerState :=
  { best_tip := 100, canonical_tip := 100, diffs_map := [],
    root_branch := { root := 100, blocks := [mkRootBlock 100 none] },
    dangling_branches := [exNoLengthBranch],
    indexer_store := none, transition_frontier_length := none, prune_interval := none,
    ledger_update_freq := 7, blocks_processed := 0 }

/-- Two dangling branches both rooted at children of the bridge block
`1`, used in either insertion order. -/
def exBridgeD1 : Branch :=
  { root := 10, blocks := [{ state_hash := 10, parent_hash := 1, blockchain_length := some 3, height := 1 }] }

/-- See `exBridgeD1`. -/
def exBridgeD2 : Branch :=
  { root := 20, blocks := [{ state_hash := 20, parent_hash := 1, blockchain_length := some 3, height := 1 }] }

/-- The bridge block: a child of the root `100` and the parent of both
dangling roots `10` and `20`. -/
def exBridgePB : PrecomputedBlock := mkPB 1 100 (some 2)

/-- A storeless fresh state rooted at `100`, dangling branches supplied
by the caller. -/
def exBridgeState (ds : List Branch) : IndexerState :=
  { mkTestState (mkRootBlock 100 (some 1)) none with dangling_branches := ds }

/-- Equality of `Except` results is decidable for the payload types in
use. -/
instance : DecidableEq (Except String ExtensionType) := fun a b =>
  match a, b with
  | Except.error x, Except.error y =>
    if h : x = y then isTrue (by rw [h]) else isFalse (by intro hc; cases hc; exact h rfl)
  | Except.error _, Except.ok _ => isFalse (by intro hc; cases hc)
  | Except.ok _, Except.error _ => isFalse (by intro hc; cases hc)
  | Except.ok x, Except.ok y =>
    if h : x = y then isTrue (by rw [h]) else isFalse (by intro hc; cases hc; exact h rfl)

/-- Heights along an ancestor list descend by exactly one from the tip
height: the `i`-th ancestor has height `h - 1 - i` where `h` is the tip
height, and the list ends at the height-1 branch root. -/
def ancestorsHeightOk (br : Branch) : List Nat → Nat → Bool
  | [], h => h == 1
  | a :: rest, h =>
    match br.lookup a with
    | some ab => ab.height == h - 1 && ancestorsHeightOk br rest (h - 1)
    | none => false

/-- A well-formed tip position: the tip block is present and its
ancestor chain has consistent, step-by-one heights down to the root. -/
def pathConsistent (br : Branch) (tip : Nat) : Bool :=
  match br.lookup tip with
  | some tb => ancestorsHeightOk br (br.ancestorIds tip) tb.height
  | none => false

/-- Twelve consecutive extensions of the root `100`. -/
def exChain12 : List PrecomputedBlock :=
  (List.range 12).map (fun i => mkPB (101 + i) (100 + i) (some (2 + i)))

/-- The state after adding twelve consecutive root extensions to a
fresh state: the best tip reaches height 13. -/
def exHeight13State : IndexerState :=
  addMany (mkTestState (mkRootBlock 100 (some 1)) none) exChain12

/-- A fresh state over root `100` with a working store and one diffs
entry for the dangling hash `200`. -/
def exDiffState : IndexerState :=
  { mkTestState (mkRootBlock 100 (some 1)) (some exStore) with diffs_map := [(200, [])] }

/-- The best-tip block of `exHeight13State`: hash `112` at height 13. -/
def exTip13 : Block :=
  { state_hash := 112, parent_hash := 111, blockchain_length := some 13, height := 13 }

/-- The new canonical tip installed by `update_canonical`: the walk's
stopping ancestor, or the old tip when the walk exhausts the chain. -/
def ucNewTip (s : IndexerState) : Nat :=
  (canonicalWalk 0 (s.root_branch.ancestorIds s.best_tip)).2.getD s.canonical_tip

/-- The diff-retention predicate of `update_canonical`'s final filter:
keep a diff unless its block lies in the old canonical tip's subtree at
or beneath the new canonical tip's height. -/
def ucDiffPred (s : IndexerState) (kv : Nat × LedgerDiff) : Bool :=
  !(s.root_branch.blocks.any (fun b =>
    s.root_branch.inSubtree s.canonical_tip b &&
    b.height ≤ ((s.root_branch.lookup (ucNewTip s)).getD default).height &&
    b.state_hash == kv.1))

/-- The best-tip hash `update_best_tip` installs. -/
def ubtNew (s : IndexerState) : Nat :=
  match s.root_branch.best_tip with
  | some b => b.state_hash
  | none => s.best_tip

/-- The root branch after `simple_extension` inserts the bridge block
under its parent. -/
def bridgeRb1 (q : IndexerState) (pb : PrecomputedBlock) (parent : Block) : Branch :=
  { q.root_branch with blocks := q.root_branch.blocks ++ [Block.ofPrecomputed pb (parent.height + 1)] }

/-- The root branch after `root_extension` additionally merges the two
dangling branches onto the bridge node. -/
def bridgeMerged (q : IndexerState) (Da Db : Branch) (pb : PrecomputedBlock)
    (parent : Block) : Branch :=
  ((bridgeRb1 q pb parent).merge_on pb.state_hash Da).merge_on pb.state_hash Db

/-- The state `root_extension` returns on a bridge block that merges
two dangling branches: tip/canonical updates after the simple insert,
the double merge, the removal of both dangling branches, then the final
tip/canonical updates. -/
def bridgeMid (q : IndexerState) (pb : PrecomputedBlock) (parent : Block) : IndexerState :=
  ({ q with root_branch := bridgeRb1 q pb parent } : IndexerState).update_best_tip.update_canonical

def bridgeResult (q : IndexerState) (Da Db : Branch) (pb : PrecomputedBlock)
    (parent : Block) : IndexerState :=
  ({ bridgeMid q pb parent with root_branch := bridgeMerged q Da Db pb parent, dangling_branches := [] } : IndexerState).update_best_tip.update_canonical

/-! Generic lemmas about the association-list primitives. -/

theorem lookupA_insertA {α : Type} (l : List (Nat × α)) (k : Nat) (v : α) (h : Nat) :
    lookupA (insertA l k v) h = if h = k then some v else lookupA l h := by
  induction l with
  | nil =>
    by_cases hk : h = k
    · subst hk; simp [insertA, lookupA, List.find?]
    · have hkh : (k == h) = false := beq_eq_false_iff_ne.mpr (Ne.symm hk)
      simp [insertA, lookupA, List.find?, hkh, hk]
  | cons kv rest ih =>
    by_cases hkv : kv.1 = k
    · have hx : (kv.1 == k) = true := beq_iff_eq.mpr hkv
      by_cases hk : h = k
      · subst hk; simp [insertA, hx, lookupA, List.find?]
      · have hkh : (k == h) = false := beq_eq_false_iff_ne.mpr (Ne.symm hk)
        have hkvh : (kv.1 == h) = false :=
          beq_eq_false_iff_ne.mpr (by rw [hkv]; exact Ne.symm hk)
        simp [insertA, hx, lookupA, List.find?, hkh, hkvh, hk]
    · have hne : (kv.1 == k) = false := beq_eq_false_iff_ne.mpr hkv
      by_cases hh : kv.1 = h
      · have hk : ¬ h = k := by rw [← hh]; exact hkv
        have hx : (kv.1 == h) = true := beq_iff_eq.mpr hh
        simp [insertA, hne, lookupA, List.find?, hx, hk]
      · have hne2 : (kv.1 == h) = false := beq_eq_false_iff_ne.mpr hh
        simpa [insertA, hne, lookupA, List.find?, hne2] using ih

/-! Structural lemmas: which fields each state transformer can touch. -/

theorem mark_one_pres (st : Store) (k : Nat) (ch : List Nat) :
    (if ch.contains k then (st.add_canonical k).toOption.getD st
     else (st.add_orphaned k).toOption.getD st).blocks = st.blocks ∧
    (if ch.contains k then (st.add_canonical k).toOption.getD st
     else (st.add_orphaned k).toOption.getD st).ledgers = st.ledgers ∧
    (if ch.contains k then (st.add_canonical k).toOption.getD st
     else (st.add_orphaned k).toOption.getD st).failWrites = st.failWrites := by
  refine ⟨?_, ?_, ?_⟩ <;>
    · split <;> cases hfw : st.failWrites <;>
        simp [Store.add_canonical, Store.add_orphaned, hfw, Except.toOption]

theorem mark_one_shape (st : Store) (k : Nat) (ch : List Nat) (hfw : st.failWrites = false) :
    (if ch.contains k then (st.add_canonical k).toOption.getD st
     else (st.add_orphaned k).toOption.getD st) =
    { st with canonicity := insertA st.canonicity k (if ch.contains k then Canonicity.Canonical else Canonicity.Orphaned) } := by
  split <;> simp [Store.add_canonical, Store.add_orphaned, hfw, Except.toOption]

theorem markStep_cons (kv : Nat × LedgerDiff) (rest : List (Nat × LedgerDiff))
    (ch : List Nat) (st : Store) :
    markStep (kv :: rest) ch st =
      markStep rest ch (if ch.contains kv.1 then (st.add_canonical kv.1).toOption.getD st
        else (st.add_orphaned kv.1).toOption.getD st) := by
  by_cases hc : ch.contains kv.1 = true <;> simp [markStep, List.foldl, hc]

theorem markStep_pres (diffs : List (Nat × LedgerDiff)) (ch : List Nat) (st : Store) :
    (markStep diffs ch st).blocks = st.blocks ∧
    (markStep diffs ch st).ledgers = st.ledgers ∧
    (markStep diffs ch st).failWrites = st.failWrites := by
  induction diffs generalizing st with
  | nil => exact ⟨rfl, rfl, rfl⟩
  | cons kv rest ih =>
    rw [markStep_cons]
    obtain ⟨h1, h2, h3⟩ := ih (if ch.contains kv.1 then (st.add_canonical kv.1).toOption.getD st
          else (st.add_orphaned kv.1).toOption.getD st)
    obtain ⟨g1, g2, g3⟩ := mark_one_pres st kv.1 ch
    exact ⟨h1.trans g1, h2.trans g2, h3.trans g3⟩

theorem markStep_canonicity (diffs : List (Nat × LedgerDiff)) (ch : List Nat) (st : Store)
    (hfw : st.failWrites = false) (h : Nat) :
    lookupA (markStep diffs ch st).canonicity h =
      if (diffs.map Prod.fst).contains h then
        some (if ch.contains h then Canonicity.Canonical else Canonicity.Orphaned)
      else lookupA st.canonicity h := by
  induction diffs generalizing st with
  | nil => simp [markStep]
  | cons kv rest ih =>
    rw [markStep_cons, mark_one_shape st kv.1 ch hfw]
    have hrec := ih { st with canonicity := insertA st.canonicity kv.1 (if ch.contains kv.1 then Canonicity.Canonical else Canonicity.Orphaned) } hfw
    rw [hrec]
    by_cases hr : (rest.map Prod.fst).contains h = true
    · have hr2 : h ∈ rest.map Prod.fst := by simpa using hr
      simp [hr2, List.contains_cons]
    · have hr2 : ¬ h ∈ rest.map Prod.fst := by simpa using hr
      by_cases hk : h = kv.1
      · simp [hr2, hk, lookupA_insertA, List.contains_cons]
      · simp [hr2, hk, lookupA_insertA, List.contains_cons]

theorem put_ledger_fields (st : Store) (k : Nat) (l : Ledger) :
    ((st.put_ledger k l).toOption.getD st).blocks = st.blocks ∧
    ((st.put_ledger k l).toOption.getD st).canonicity = st.canonicity ∧
    ((st.put_ledger k l).toOption.getD st).failWrites = st.failWrites := by
  cases hfw : st.failWrites <;> simp [Store.put_ledger, hfw, Except.toOption]

theorem ledgerStep_eq_none (s : IndexerState) (oh : Nat) (ch : List Nat)
    (hst : s.indexer_store = none) : ledgerStep s oh ch = s := by
  unfold ledgerStep
  rw [hst]
  split <;> rfl

theorem ledgerStep_eq_some (s : IndexerState) (oh : Nat) (ch : List Nat) (st : Store)
    (hst : s.indexer_store = some st) :
    ∃ st2, ledgerStep s oh ch = { s with indexer_store := some st2 } ∧
      st2.blocks = st.blocks ∧ st2.canonicity = st.canonicity ∧
      st2.failWrites = st.failWrites := by
  unfold ledgerStep
  rw [hst]
  split
  · dsimp only
    cases hgl : st.get_ledger oh with
    | some l0 =>
      obtain ⟨h1, h2, h3⟩ := put_ledger_fields st s.canonical_tip
        (ch.foldl (fun l h =>
          match lookupA s.diffs_map h with
          | some d => (applyDiff l d).getD l
          | none => l) l0)
      exact ⟨_, rfl, h1, h2, h3⟩
    | none => exact ⟨st, by rw [← hst], rfl, rfl, rfl⟩
  · exact ⟨st, by rw [← hst], rfl, rfl, rfl⟩

theorem update_canonical_master (s : IndexerState) :
    ∃ p : Nat × LedgerDiff → Bool,
      (s.update_canonical).diffs_map = s.diffs_map.filter p ∧
      (s.update_canonical).root_branch = s.root_branch ∧
      (s.update_canonical).best_tip = s.best_tip ∧
      (s.update_canonical).dangling_branches = s.dangling_branches ∧
      (s.update_canonical).blocks_processed = s.blocks_processed ∧
      (s.update_canonical).transition_frontier_length = s.transition_frontier_length ∧
      (s.update_canonical).prune_interval = s.prune_interval ∧
      (s.update_canonical).ledger_update_freq = s.ledger_update_freq ∧
      (s.update_canonical).canonical_tip =
        ((canonicalWalk 0 (s.root_branch.ancestorIds s.best_tip)).2).getD s.canonical_tip ∧
      (s.indexer_store = none → (s.update_canonical).indexer_store = none) ∧
      (∀ st, s.indexer_store = some st →
        ∃ st1, (s.update_canonical).indexer_store = some st1 ∧
          st1.blocks = st.blocks ∧ st1.failWrites = st.failWrites ∧
          (st.failWrites = false → ∀ h, lookupA st1.canonicity h =
            if (s.diffs_map.map Prod.fst).contains h then
              some (if ((canonicalWalk 0 (s.root_branch.ancestorIds s.best_tip)).1.reverse).contains h
                    then Canonicity.Canonical else Canonicity.Orphaned)
            else lookupA st.canonicity h)) := by
  cases hsome : s.indexer_store with
  | none =>
    have hL := ledgerStep_eq_none
      { s with canonical_tip := (canonicalWalk 0 (s.root_branch.ancestorIds s.best_tip)).2.getD s.canonical_tip }
      s.canonical_tip (canonicalWalk 0 (s.root_branch.ancestorIds s.best_tip)).1.reverse hsome
    simp only [IndexerState.update_canonical]
    rw [hL]
    dsimp only
    rw [hsome]
    refine ⟨_, rfl, rfl, rfl, rfl, rfl, rfl, rfl, rfl, rfl, fun _ => rfl, ?_⟩
    intro st hst
    exact absurd hst (by simp)
  | some st =>
    obtain ⟨st2, hL, hb, hc, hf⟩ := ledgerStep_eq_some
      { s with canonical_tip := (canonicalWalk 0 (s.root_branch.ancestorIds s.best_tip)).2.getD s.canonical_tip }
      s.canonical_tip (canonicalWalk 0 (s.root_branch.ancestorIds s.best_tip)).1.reverse st hsome
    simp only [IndexerState.update_canonical]
    rw [hL]
    dsimp only
    refine ⟨_, rfl, rfl, rfl, rfl, rfl, rfl, rfl, rfl, rfl, ?_, ?_⟩
    · intro hcontra
      exact absurd hcontra (by simp)
    · intro st0 hst0
      have hstx : st0 = st := (Option.some.inj hst0).symm
      subst hstx
      obtain ⟨hmb, _, hmf⟩ := markStep_pres s.diffs_map
        (canonicalWalk 0 (s.root_branch.ancestorIds s.best_tip)).1.reverse st2
      refine ⟨_, rfl, hmb.trans hb, hmf.trans hf, ?_⟩
      intro hfw h
      have hfw2 : st2.failWrites = false := hf.trans hfw
      rw [markStep_canonicity s.diffs_map
        (canonicalWalk 0 (s.root_branch.ancestorIds s.best_tip)).1.reverse st2 hfw2 h, hc]

theorem uc_simple (s : IndexerState) :
    (s.update_canonical).root_branch = s.root_branch ∧
    (s.update_canonical).best_tip = s.best_tip ∧
    (s.update_canonical).dangling_branches = s.dangling_branches ∧
    (s.update_canonical).blocks_processed = s.blocks_processed ∧
    (s.update_canonical).transition_frontier_length = s.transition_frontier_length ∧
    (s.update_canonical).prune_interval = s.prune_interval ∧
    (s.update_canonical).ledger_update_freq = s.ledger_update_freq ∧
    (∀ kv, kv ∈ (s.update_canonical).diffs_map → kv ∈ s.diffs_map) := by
  obtain ⟨p, hd, h1, h2, h3, h4, h5, h6, h7, _, _, _⟩ := update_canonical_master s
  exact ⟨h1, h2, h3, h4, h5, h6, h7, fun kv hkv => List.mem_of_mem_filter (hd ▸ hkv)⟩

theorem uc_store_maps (s : IndexerState) :
    ((s.update_canonical).indexer_store).map Store.blocks =
      (s.indexer_store).map Store.blocks ∧
    ((s.update_canonical).indexer_store).map Store.failWrites =
      (s.indexer_store).map Store.failWrites := by
  obtain ⟨p, _, _, _, _, _, _, _, _, _, hnone, hsome⟩ := update_canonical_master s
  cases hs : s.indexer_store with
  | none => rw [hnone hs]; exact ⟨rfl, rfl⟩
  | some st =>
    obtain ⟨st1, h1, hb, hf, _⟩ := hsome st hs
    rw [h1]
    simp [hb, hf]

theorem prune_shape (s : IndexerState) :
    ∃ rb, s.prune_root_branch = { s with root_branch := rb } := by
  unfold IndexerState.prune_root_branch
  split
  · exact ⟨s.root_branch, rfl⟩
  · dsimp only
    split
    · exact ⟨_, rfl⟩
    · exact ⟨s.root_branch, rfl⟩

theorem prune_eq_of_none (s : IndexerState)
    (h : s.transition_frontier_length = none) : s.prune_root_branch = s := by
  unfold IndexerState.prune_root_branch
  rw [h]

theorem update_best_tip_shape (s : IndexerState) :
    ∃ b, s.update_best_tip = { s with best_tip := b } := by
  unfold IndexerState.update_best_tip
  split
  · exact ⟨_, rfl⟩
  · exact ⟨s.best_tip, rfl⟩

theorem ubc_pres (s : IndexerState) :
    (s.update_best_tip.update_canonical).root_branch = s.root_branch ∧
    (s.update_best_tip.update_canonical).dangling_branches = s.dangling_branches ∧
    (s.update_best_tip.update_canonical).blocks_processed = s.blocks_processed ∧
    (s.update_best_tip.update_canonical).transition_frontier_length =
      s.transition_frontier_length ∧
    (s.update_best_tip.update_canonical).prune_interval = s.prune_interval ∧
    (s.update_best_tip.update_canonical).ledger_update_freq = s.ledger_update_freq ∧
    (∀ kv, kv ∈ (s.update_best_tip.update_canonical).diffs_map → kv ∈ s.diffs_map) ∧
    ((s.update_best_tip.update_canonical).indexer_store).map Store.blocks =
      (s.indexer_store).map Store.blocks ∧
    ((s.update_best_tip.update_canonical).indexer_store).map Store.failWrites =
      (s.indexer_store).map Store.failWrites := by
  obtain ⟨b, hb⟩ := update_best_tip_shape s
  rw [hb]
  obtain ⟨h1, _, h3, h4, h5, h6, h7, h8⟩ := uc_simple { s with best_tip := b }
  obtain ⟨m1, m2⟩ := uc_store_maps { s with best_tip := b }
  exact ⟨h1, h3, h4, h5, h6, h7, fun kv hkv => h8 kv hkv, m1, m2⟩

theorem root_extension_pres (s : IndexerState) (pb : PrecomputedBlock) :
    (s.root_extension pb).1.blocks_processed = s.blocks_processed ∧
    (s.root_extension pb).1.transition_frontier_length = s.transition_frontier_length ∧
    (s.root_extension pb).1.prune_interval = s.prune_interval ∧
    (s.root_extension pb).1.ledger_update_freq = s.ledger_update_freq ∧
    (∀ kv, kv ∈ (s.root_extension pb).1.diffs_map → kv ∈ s.diffs_map) ∧
    ((s.root_extension pb).1.indexer_store).map Store.blocks =
      (s.indexer_store).map Store.blocks ∧
    ((s.root_extension pb).1.indexer_store).map Store.failWrites =
      (s.indexer_store).map Store.failWrites ∧
    ((s.root_extension pb).2 = Except.ok none → (s.root_extension pb).1 = s) ∧
    (∀ r, (s.root_extension pb).2 = Except.ok (some r) →
      r = ExtensionType.RootSimple ∨ r = ExtensionType.RootComplex) := by
  unfold IndexerState.root_extension
  cases hse : s.root_branch.simple_extension pb with
  | none =>
    refine ⟨rfl, rfl, rfl, rfl, fun kv h => h, rfl, rfl, fun _ => rfl, ?_⟩
    intro r h
    exact Option.noConfusion (Except.ok.inj h)
  | some pr =>
    obtain ⟨rb, nid⟩ := pr
    dsimp only
    obtain ⟨q1, q2, q3, q4, q5, q6, q7, q8, q9⟩ := ubc_pres { s with root_branch := rb }
    split
    · exact ⟨q3, q4, q5, q6, fun kv h => q7 kv h, q8, q9,
        fun h => Except.noConfusion h, fun r h => Except.noConfusion h⟩
    · split
      · refine ⟨q3, q4, q5, q6, fun kv h => q7 kv h, q8, q9, ?_, ?_⟩
        · intro h
          exact Option.noConfusion (Except.ok.inj h)
        · intro r h
          exact Or.inl (Option.some.inj (Except.ok.inj h)).symm
      · obtain ⟨w1, w2, w3, w4, w5, w6, w7, w8, w9⟩ := ubc_pres
          { ({ s with root_branch := rb }).update_best_tip.update_canonical with
            root_branch := (rootMergeScan pb nid
              (({ s with root_branch := rb }).update_best_tip.update_canonical).root_branch
              (({ s with root_branch := rb }).update_best_tip.update_canonical).dangling_branches 0).1,
            dangling_branches := removeIndicesAdj
              (({ s with root_branch := rb }).update_best_tip.update_canonical).dangling_branches
              (rootMergeScan pb nid
                (({ s with root_branch := rb }).update_best_tip.update_canonical).root_branch
                (({ s with root_branch := rb }).update_best_tip.update_canonical).dangling_branches 0).2.1 }
        refine ⟨w3.trans q3, w4.trans q4, w5.trans q5, w6.trans q6,
          fun kv h => q7 kv (w7 kv h), w8.trans q8, w9.trans q9, ?_, ?_⟩
        · intro h
          exact Option.noConfusion (Except.ok.inj h)
        · intro r h
          exact Or.inr (Option.some.inj (Except.ok.inj h)).symm

theorem danglingScan_none_unchanged (pb : PrecomputedBlock) (ds : List Branch) (i : Nat)
    (h : (danglingScan pb ds i).2 = Except.ok none) : (danglingScan pb ds i).1 = ds := by
  induction ds generalizing i with
  | nil => rfl
  | cons d rest ih =>
    unfold danglingScan at h ⊢
    cases hpl : pb.blockchain_length with
    | some length =>
      rw [hpl] at h
      dsimp only at h ⊢
      by_cases hw : (decide (d.best_tipD.blockchain_length.getD 0 + 1 ≥ length) &&
          decide (length + 1 ≥ d.root_block.blockchain_length.getD 0)) = true
      · rw [if_pos hw] at h ⊢
        by_cases hrev : is_reverse_extension d pb = true
        · rw [if_pos hrev] at h
          exact Option.noConfusion (Except.ok.inj h)
        · rw [if_neg hrev] at h ⊢
          cases hfwd : d.simple_extension pb with
          | some pr => rw [hfwd] at h; exact Option.noConfusion (Except.ok.inj h)
          | none =>
            rw [hfwd] at h
            by_cases hdup : same_block_added_twice d pb = true
            · rw [if_pos hdup] at h; exact Except.noConfusion h
            · rw [if_neg hdup] at h ⊢
              dsimp only at h ⊢
              rw [ih (i + 1) h]
      · rw [if_neg hw] at h ⊢
        dsimp only at h ⊢
        rw [ih (i + 1) h]
    | none =>
      rw [hpl] at h
      dsimp only at h ⊢
      rw [if_pos rfl] at h ⊢
      by_cases hrev : is_reverse_extension d pb = true
      · rw [if_pos hrev] at h
        exact Option.noConfusion (Except.ok.inj h)
      · rw [if_neg hrev] at h ⊢
        cases hfwd : d.simple_extension pb with
        | some pr => rw [hfwd] at h; exact Option.noConfusion (Except.ok.inj h)
        | none =>
          rw [hfwd] at h
          by_cases hdup : same_block_added_twice d pb = true
          · rw [if_pos hdup] at h; exact Except.noConfusion h
          · rw [if_neg hdup] at h ⊢
            dsimp only at h ⊢
            rw [ih (i + 1) h]

theorem update_dangling_shape (s : IndexerState) (pb : PrecomputedBlock)
    (ei nid : Nat) (dir : ExtensionDirection) :
    ∃ ds r, s.update_dangling pb ei nid dir = ({ s with dangling_branches := ds }, Except.ok r) ∧
      (r = ExtensionType.DanglingSimpleForward ∨ r = ExtensionType.DanglingSimpleReverse ∨
       r = ExtensionType.DanglingComplex) := by
  unfold IndexerState.update_dangling
  dsimp only
  cases dir with
  | Forward =>
    split
    · exact ⟨s.dangling_branches, _, rfl, Or.inl rfl⟩
    · exact ⟨_, _, rfl, Or.inr (Or.inr rfl)⟩
  | Reverse =>
    split
    · exact ⟨s.dangling_branches, _, rfl, Or.inr (Or.inl rfl)⟩
    · exact ⟨_, _, rfl, Or.inr (Or.inr rfl)⟩

theorem dangling_extension_eq (s : IndexerState) (pb : PrecomputedBlock) :
    s.dangling_extension pb =
      ({ s with dangling_branches := (danglingScan pb s.dangling_branches 0).1 },
       (danglingScan pb s.dangling_branches 0).2) := rfl

theorem addBlockCore_pres (s : IndexerState) (pb : PrecomputedBlock) :
    (addBlockCore s pb).1.blocks_processed = s.blocks_processed + 1 ∧
    (addBlockCore s pb).1.transition_frontier_length = s.transition_frontier_length ∧
    (addBlockCore s pb).1.prune_interval = s.prune_interval ∧
    (addBlockCore s pb).1.ledger_update_freq = s.ledger_update_freq ∧
    ((addBlockCore s pb).1.indexer_store).map Store.blocks =
      (s.indexer_store).map Store.blocks ∧
    ((addBlockCore s pb).1.indexer_store).map Store.failWrites =
      (s.indexer_store).map Store.failWrites := by
  unfold addBlockCore
  dsimp only
  obtain ⟨r1, r2, r3, r4, _, r6, r7, rnone, _⟩ :=
    root_extension_pres { s with blocks_processed := s.blocks_processed + 1 } pb
  split
  next s1 e heq =>
    by_cases hbnd : ({ s with blocks_processed := s.blocks_processed + 1 } : IndexerState).is_length_within_root_bounds pb = true
    · rw [if_pos hbnd] at heq
      have h1 : ({ s with blocks_processed := s.blocks_processed + 1 } : IndexerState).root_extension pb = (s1, Except.error e) := heq
      have hfst : (({ s with blocks_processed := s.blocks_processed + 1 } : IndexerState).root_extension pb).1 = s1 := by rw [h1]
      rw [hfst] at r1 r2 r3 r4 r6 r7
      exact ⟨r1, r2, r3, r4, r6, r7⟩
    · rw [if_neg hbnd] at heq
      injection heq with h1 h2
      exact Except.noConfusion h2
  next s1 ext heq =>
    by_cases hbnd : ({ s with blocks_processed := s.blocks_processed + 1 } : IndexerState).is_length_within_root_bounds pb = true
    · rw [if_pos hbnd] at heq
      have hfst : (({ s with blocks_processed := s.blocks_processed + 1 } : IndexerState).root_extension pb).1 = s1 := by rw [heq]
      rw [hfst] at r1 r2 r3 r4 r6 r7
      exact ⟨r1, r2, r3, r4, r6, r7⟩
    · rw [if_neg hbnd] at heq
      injection heq with h1 h2
      exact Option.noConfusion (Except.ok.inj h2)
  next s1 heq =>
    have hs1 : s1 = { s with blocks_processed := s.blocks_processed + 1 } := by
      by_cases hbnd : ({ s with blocks_processed := s.blocks_processed + 1 } : IndexerState).is_length_within_root_bounds pb = true
      · rw [if_pos hbnd] at heq
        have h2 : (({ s with blocks_processed := s.blocks_processed + 1 } : IndexerState).root_extension pb).2 = Except.ok none := by rw [heq]
        have h1 : (({ s with blocks_processed := s.blocks_processed + 1 } : IndexerState).root_extension pb).1 = s1 := by rw [heq]
        rw [← h1, rnone h2]
      · rw [if_neg hbnd] at heq
        injection heq with h1 h2
        exact h1.symm
    subst hs1
    rw [dangling_extension_eq]
    cases hscan : (danglingScan pb ({ s with blocks_processed := s.blocks_processed + 1 } : IndexerState).dangling_branches 0).2 with
    | error e2 =>
      exact ⟨rfl, rfl, rfl, rfl, rfl, rfl⟩
    | ok v =>
      cases v with
      | none =>
        exact ⟨rfl, rfl, rfl, rfl, rfl, rfl⟩
      | some trip =>
        obtain ⟨ei, nid, dir⟩ := trip
        dsimp only
        obtain ⟨ds2, rr, hud, _⟩ := update_dangling_shape
          { { s with blocks_processed := s.blocks_processed + 1 } with
            dangling_branches := (danglingScan pb ({ s with blocks_processed := s.blocks_processed + 1 } : IndexerState).dangling_branches 0).1 }
          pb ei nid dir
        rw [hud]
        exact ⟨rfl, rfl, rfl, rfl, rfl, rfl⟩

theorem add_block_pres (s : IndexerState) (pb : PrecomputedBlock) :
    (s.add_block pb).1.transition_frontier_length = s.transition_frontier_length ∧
    (s.add_block pb).1.prune_interval = s.prune_interval ∧
    (s.add_block pb).1.ledger_update_freq = s.ledger_update_freq := by
  unfold IndexerState.add_block
  obtain ⟨rb, hp⟩ := prune_shape s
  rw [hp]
  dsimp only
  split
  · exact ⟨rfl, rfl, rfl⟩
  · cases hst : ({ s with root_branch := rb } : IndexerState).indexer_store with
    | none =>
      obtain ⟨_, c2, c3, c4, _, _⟩ := addBlockCore_pres
        { s with root_branch := rb, indexer_store := none } pb
      exact ⟨c2, c3, c4⟩
    | some st =>
      dsimp only
      cases hput : st.put_block pb with
      | error e => exact ⟨rfl, rfl, rfl⟩
      | ok st1 =>
        obtain ⟨_, c2, c3, c4, _, _⟩ := addBlockCore_pres
          { s with root_branch := rb, indexer_store := some st1 } pb
        exact ⟨c2, c3, c4⟩

theorem pickBest_aux (l : List Block) (acc : Option Block) (b : Block)
    (h : l.foldl (fun acc b => match acc with
      | none => some b
      | some a => if keyLt a b then some b else some a) acc = some b) :
    b ∈ l ∨ acc = some b := by
  induction l generalizing acc with
  | nil => exact Or.inr h
  | cons x rest ih =>
    rcases ih _ h with hmem | hacc
    · exact Or.inl (List.mem_cons_of_mem x hmem)
    · cases acc with
      | none =>
        have hbx : b = x := (Option.some.inj hacc).symm
        exact Or.inl (by rw [List.mem_cons]; exact Or.inl hbx)
      | some a =>
        replace hacc : (if keyLt a x = true then some x else some a) = some b := hacc
        by_cases hk : keyLt a x = true
        · rw [if_pos hk] at hacc
          have hbx : b = x := (Option.some.inj hacc).symm
          exact Or.inl (by rw [List.mem_cons]; exact Or.inl hbx)
        · rw [if_neg hk] at hacc
          exact Or.inr hacc

theorem pickBest_mem (l : List Block) (b : Block) (h : pickBest l = some b) : b ∈ l := by
  rcases pickBest_aux l none b h with hmem | hacc
  · exact hmem
  · exact Option.noConfusion hacc

theorem danglingScan_all_none (pb : PrecomputedBlock) (l : Nat)
    (hl : pb.blockchain_length = some l) (h2 : 2 ≤ l) (ds : List Branch)
    (hd : ∀ d ∈ ds, ∀ b ∈ d.blocks, b.blockchain_length = none) (i : Nat) :
    danglingScan pb ds i = (ds, Except.ok none) := by
  induction ds generalizing i with
  | nil => rfl
  | cons d rest ih =>
    have hroot : d.root_block.blockchain_length = none := by
      unfold Branch.root_block
      cases hlk : d.lookup d.root with
      | some b =>
        have hmem : b ∈ d.blocks := List.mem_of_find?_eq_some hlk
        simpa using hd d (List.mem_cons_self d rest) b hmem
      | none => rfl
    have htip : d.best_tipD.blockchain_length = none := by
      unfold Branch.best_tipD Branch.best_tip
      cases hpk : pickBest d.leaves with
      | some b =>
        have hmem : b ∈ d.blocks := List.mem_of_mem_filter (pickBest_mem d.leaves b hpk)
        simpa using hd d (List.mem_cons_self d rest) b hmem
      | none => rfl
    have hcond : (decide (d.best_tipD.blockchain_length.getD 0 + 1 ≥ l) &&
        decide (l + 1 ≥ d.root_block.blockchain_length.getD 0)) = false := by
      rw [htip, hroot]
      simp only [Option.getD]
      have : ¬ (0 + 1 ≥ l) := by omega
      simp [this]
    unfold danglingScan
    rw [hl]
    dsimp only
    rw [if_neg (by rw [hcond]; exact Bool.false_ne_true)]
    rw [ih (fun dx hdx => hd dx (List.mem_cons_of_mem d hdx)) (i + 1)]

theorem addBlockCore_diffs (s : IndexerState) (pb : PrecomputedBlock)
    (s1 : IndexerState) (r : ExtensionType)
    (heq : addBlockCore s pb = (s1, Except.ok r)) :
    (r = ExtensionType.DanglingNew →
      s1.diffs_map = insertA s.diffs_map pb.state_hash (LedgerDiff.from_precomputed_block pb)) ∧
    (r ≠ ExtensionType.DanglingNew → ∀ kv, kv ∈ s1.diffs_map → kv ∈ s.diffs_map) := by
  unfold addBlockCore at heq
  dsimp only at heq
  obtain ⟨_, _, _, _, r5, _, _, rnone, rsome⟩ :=
    root_extension_pres { s with blocks_processed := s.blocks_processed + 1 } pb
  split at heq
  next s1a e ha =>
    injection heq with h1 h2
    exact Except.noConfusion h2
  next s1a ext ha =>
    injection heq with h1 h2
    have hr : r = ext := (Except.ok.inj h2).symm
    subst hr
    subst h1
    by_cases hbnd : ({ s with blocks_processed := s.blocks_processed + 1 } : IndexerState).is_length_within_root_bounds pb = true
    · rw [if_pos hbnd] at ha
      have hre : r = ExtensionType.RootSimple ∨ r = ExtensionType.RootComplex := by
        apply rsome
        rw [ha]
      have hfst : (({ s with blocks_processed := s.blocks_processed + 1 } : IndexerState).root_extension pb).1 = s1a := by rw [ha]
      constructor
      · intro hdn
        rcases hre with h | h <;> (rw [hdn] at h; exact ExtensionType.noConfusion h)
      · intro _ kv hkv
        exact r5 kv (by rw [hfst]; exact hkv)
    · rw [if_neg hbnd] at ha
      injection ha with hx hy
      exact Option.noConfusion (Except.ok.inj hy)
  next s1a ha =>
    have hs1a : s1a = { s with blocks_processed := s.blocks_processed + 1 } := by
      by_cases hbnd : ({ s with blocks_processed := s.blocks_processed + 1 } : IndexerState).is_length_within_root_bounds pb = true
      · rw [if_pos hbnd] at ha
        have hsnd : (({ s with blocks_processed := s.blocks_processed + 1 } : IndexerState).root_extension pb).2 = Except.ok none := by rw [ha]
        have hfst : (({ s with blocks_processed := s.blocks_processed + 1 } : IndexerState).root_extension pb).1 = s1a := by rw [ha]
        rw [← hfst, rnone hsnd]
      · rw [if_neg hbnd] at ha
        injection ha with hx hy
        exact hx.symm
    subst hs1a
    rw [dangling_extension_eq] at heq
    cases hscan : (danglingScan pb ({ s with blocks_processed := s.blocks_processed + 1 } : IndexerState).dangling_branches 0).2 with
    | error e2 =>
      rw [hscan] at heq
      injection heq with h1 h2
      exact Except.noConfusion h2
    | ok v =>
      cases v with
      | none =>
        rw [hscan] at heq
        dsimp only at heq
        injection heq with h1 h2
        have hr : r = ExtensionType.DanglingNew := (Except.ok.inj h2).symm
        subst hr
        constructor
        · intro _
          rw [← h1]
        · intro hne
          exact absurd rfl hne
      | some trip =>
        obtain ⟨ei, nid, dir⟩ := trip
        rw [hscan] at heq
        dsimp only at heq
        obtain ⟨ds2, rr, hud, hrr⟩ := update_dangling_shape
          { { s with blocks_processed := s.blocks_processed + 1 } with
            dangling_branches := (danglingScan pb ({ s with blocks_processed := s.blocks_processed + 1 } : IndexerState).dangling_branches 0).1 }
          pb ei nid dir
        rw [hud] at heq
        injection heq with h1 h2
        have hr : r = rr := (Except.ok.inj h2).symm
        subst hr
        constructor
        · intro hdn
          rcases hrr with h | h | h <;> (rw [hdn] at h; exact ExtensionType.noConfusion h)
        · intro _ kv hkv
          rw [← h1] at hkv
          exact hkv

theorem add_block_store_has (s : IndexerState) (pb : PrecomputedBlock) (st : Store)
    (hst : s.indexer_store = some st) (hfw : st.failWrites = false) :
    ∃ st1, ((s.add_block pb).1).indexer_store = some st1 ∧
      (lookupA st1.blocks pb.state_hash).isSome = true := by
  unfold IndexerState.add_block
  obtain ⟨rb, hp⟩ := prune_shape s
  rw [hp]
  dsimp only
  rw [hst]
  split
  next hdup =>
    refine ⟨st, rfl, ?_⟩
    simpa [IndexerState.is_block_already_in_db, Store.get_block] using hdup
  next hdup =>
    dsimp only
    have hput : st.put_block pb =
        Except.ok { st with blocks := insertA st.blocks pb.state_hash pb } := by
      simp [Store.put_block, hfw]
    rw [hput]
    dsimp only
    obtain ⟨_, _, _, _, c5, _⟩ := addBlockCore_pres
      { s with root_branch := rb,
               indexer_store := some { st with blocks := insertA st.blocks pb.state_hash pb } } pb
    cases hx : ((addBlockCore
      { s with root_branch := rb,
               indexer_store := some { st with blocks := insertA st.blocks pb.state_hash pb } } pb).1).indexer_store with
    | none => rw [hx] at c5; exact absurd c5 (by simp)
    | some st1 =>
      rw [hx] at c5
      simp only [Option.map] at c5
      have hblocks : st1.blocks = insertA st.blocks pb.state_hash pb := Option.some.inj c5
      refine ⟨st1, rfl, ?_⟩
      rw [hblocks, lookupA_insertA]
      simp

/-- C9: the payment and delegation constructors increment the nonce by
exactly one, coinbase and fee-transfer constructors keep it unchanged,
and a debit fails exactly when the amount exceeds the balance. -/
theorem C9_nonce_and_debit (pre : Account) (amount : Nat) (deduction : Bool) (dg : Nat) :
    (Account.from_payment pre amount deduction).map Account.nonce =
      (if deduction && decide (amount > pre.balance) then none else some (pre.nonce + 1)) ∧
    (Account.from_delegation pre dg).nonce = pre.nonce + 1 ∧
    (Account.from_coinbase pre amount).nonce = pre.nonce ∧
    (Account.from_fee pre amount deduction).map Account.nonce =
      (if deduction && decide (amount > pre.balance) then none else some pre.nonce) ∧
    (Account.from_payment pre amount true).isNone = decide (amount > pre.balance) ∧
    (Account.from_fee pre amount true).isNone = decide (amount > pre.balance) := by
  refine ⟨?_, rfl, rfl, ?_, ?_, ?_⟩ <;>
    by_cases hgt : amount > pre.balance <;>
      cases deduction <;>
        simp [Account.from_payment, Account.from_fee, hgt]

/-- C7 counterexample: on the chain `100 → 101 → 102 → 103` the
`best_chain 2` slice computed by `handle_conn` serves `[100, 101]` —
the two blocks nearest the root, with the best tip dropped — not the
top two blocks `[103, 102]` from the best tip downward. -/
theorem C7_counterexample :
    bestChainResponse exChainBranch.longest_chain 2 = [100, 101] ∧
    bestChainResponse exChainBranch.longest_chain 2 ≠ [103, 102] := by
  constructor <;> decide

/-- C7 amended: for a `best_chain N` request the handler serves the
first `N` entries of the root-first longest chain after dropping its
final entry; the dropped final entry is the best tip, so the response
runs from the root upward and never includes the best tip. -/
theorem C7_amended (br : Branch) (num : Nat) (tip : Block)
    (htip : br.best_tip = some tip) :
    bestChainResponse br.longest_chain num = br.longest_chain.dropLast.take num ∧
    br.longest_chain.getLast? = some tip.state_hash := by
  constructor
  · rw [bestChainResponse, List.dropLast_eq_take]
  · rw [Branch.longest_chain, htip, List.getLast?_concat]

/-- Witness for `C7_amended` at the concrete chain branch. -/
theorem C7_amended_witness :
    bestChainResponse exChainBranch.longest_chain 2 =
      exChainBranch.longest_chain.dropLast.take 2 ∧
    exChainBranch.longest_chain.getLast? =
      some (Block.mk 103 102 (some 4) 4).state_hash :=
  C7_amended exChainBranch 2 (Block.mk 103 102 (some 4) 4) (by decide)

/-- C1 counterexample: after eleven consecutive root extensions from a
fresh state the best tip has height 12 and the canonical tip is still
the root, at depth 11 below the best tip — not at depth
`min(MAINNET_CANONICAL_THRESHOLD, best_tip.height - 1) = 10` as
claimed. -/
theorem C1_counterexample :
    exHeight12State.best_tip_block.height - exHeight12State.canonical_tip_block.height = 11 ∧
    min MAINNET_CANONICAL_THRESHOLD (exHeight12State.best_tip_block.height - 1) = 10 := by
  constructor <;> decide

/-- C4 counterexample: without a store the duplicate gate cannot fire —
adding the same block twice from a fresh storeless state returns
`RootSimple` again rather than `BlockNotAdded`, counts
`blocks_processed = 2`, and leaves a different forest than a single
add. -/
theorem C4_counterexample :
    exTwice.2 = Except.ok ExtensionType.RootSimple ∧
    exTwice.2 ≠ Except.ok ExtensionType.BlockNotAdded ∧
    exTwice.1.blocks_processed = 2 ∧
    exTwice.1 ≠ exOnce.1 := by
  refine ⟨by decide, by decide, by decide, by decide⟩

/-- C3 counterexample: re-adding the root block of a dangling branch
makes `add_block` fail with the `same_block_added_twice` error instead
of returning `BlockNotAdded`. -/
theorem C3_counterexample :
    exDupDangling.2 = Except.error "Same block added twice to the indexer state" ∧
    exDupDangling.2 ≠ Except.ok ExtensionType.BlockNotAdded := by
  constructor <;> decide

/-- C5 counterexample: on a state whose prune gate fires, a failing
store write makes `add_block` return an error while the root branch has
already been pruned — the in-memory forest is not exactly as before the
call. -/
theorem C5_counterexample :
    exPruneFail.2 = Except.error "block write failure" ∧
    exPruneFail.1.root_branch ≠ exPruneFailState.root_branch := by
  constructor <;> decide

/-- C8 counterexample: the promotion pass triggered by adding the root
child `101` marks the dangling diff key `200` orphaned even though
block `200` sits in a dangling branch (and is not on a side branch of
the root branch sharing a height with a canonical block), and it never
marks the passed-over canonical hash `100` canonical because `100` has
no `diffs_map` entry. -/
theorem C8_counterexample :
    (exMarkedState.indexer_store.getD exStore).get_canonicity 200 =
      some Canonicity.Orphaned ∧
    exMarkedState.dangling_branches.any (fun d => (d.lookup 200).isSome) = true ∧
    (exMarkedState.indexer_store.getD exStore).get_canonicity 100 = none := by
  refine ⟨by decide, by decide, by decide⟩

/-- C2 amended: `diffs_map` receives an entry for the incoming block
only when it opens a new dangling branch (`DanglingNew`); on every other
successful outcome — in particular a root extension — no entry is added
and the diffs map only keeps (a subset of) its previous entries.  The
claimed invariant "an entry for every block strictly above
`canonical_tip` in the root branch" therefore fails for blocks that
enter through a root extension. -/
theorem C2_amended (s : IndexerState) (pb : PrecomputedBlock)
    (s1 : IndexerState) (r : ExtensionType)
    (h : s.add_block pb = (s1, Except.ok r)) :
    (r = ExtensionType.DanglingNew →
      s1.diffs_map = insertA s.diffs_map pb.state_hash (LedgerDiff.from_precomputed_block pb)) ∧
    (r ≠ ExtensionType.DanglingNew → ∀ kv, kv ∈ s1.diffs_map → kv ∈ s.diffs_map) := by
  unfold IndexerState.add_block at h
  obtain ⟨rb, hp⟩ := prune_shape s
  rw [hp] at h
  dsimp only at h
  split at h
  next hdup =>
    injection h with h1 h2
    have hr : r = ExtensionType.BlockNotAdded := (Except.ok.inj h2).symm
    constructor
    · intro hdn
      rw [hdn] at hr
      exact ExtensionType.noConfusion hr
    · intro _ kv hkv
      rw [← h1] at hkv
      exact hkv
  next hdup =>
    cases hst : s.indexer_store with
    | none =>
      rw [hst] at h
      exact addBlockCore_diffs { s with root_branch := rb, indexer_store := none } pb s1 r h
    | some st =>
      rw [hst] at h
      dsimp only at h
      cases hput : st.put_block pb with
      | error e =>
        rw [hput] at h
        injection h with h1 h2
        exact Except.noConfusion h2
      | ok st1 =>
        rw [hput] at h
        exact addBlockCore_diffs { s with root_branch := rb, indexer_store := some st1 } pb s1 r h

/-- Witness for `C2_amended`: adding a root child to a fresh state
returns `RootSimple` and leaves the diffs map without an entry for the
new block. -/
theorem C2_amended_witness :
    (ExtensionType.RootSimple = ExtensionType.DanglingNew →
      exOnce.1.diffs_map =
        insertA exFreshNoStore.diffs_map exChildPB.state_hash
          (LedgerDiff.from_precomputed_block exChildPB)) ∧
    (ExtensionType.RootSimple ≠ ExtensionType.DanglingNew →
      ∀ kv, kv ∈ exOnce.1.diffs_map → kv ∈ exFreshNoStore.diffs_map) :=
  C2_amended exFreshNoStore exChildPB exOnce.1 ExtensionType.RootSimple (by decide)

/-- C2 counterexample: a fresh storeless state plus one root extension
leaves `diffs_map` empty although the added block `101` sits strictly
above the canonical tip (the root) in the root branch. -/
theorem C2_counterexample :
    exOnce.1.diffs_map = [] ∧
    (exOnce.1.root_branch.lookup 101).isSome = true ∧
    exOnce.1.canonical_tip = 100 ∧
    ((exOnce.1.root_branch.lookup 101).getD default).height >
      ((exOnce.1.root_branch.lookup 100).getD default).height := by
  refine ⟨by decide, by decide, by decide, by decide⟩

/-- C4 amended: with a store attached (and writes succeeding), and with
the prune gate disabled so it cannot fire between the calls, a repeated
`add_block` of the same block is absorbed: the second call returns
`BlockNotAdded` and leaves the state exactly unchanged, and
`blocks_processed` is incremented only by the first call.  Without a
store the duplicate gate defaults to false and the claim fails. -/
theorem C4_amended (s : IndexerState) (pb : PrecomputedBlock) (st : Store)
    (htfl : s.transition_frontier_length = none)
    (hst : s.indexer_store = some st) (hfw : st.failWrites = false) :
    (s.add_block pb).1.add_block pb = ((s.add_block pb).1, Except.ok ExtensionType.BlockNotAdded) ∧
    (s.is_block_already_in_db pb = false →
      (s.add_block pb).1.blocks_processed = s.blocks_processed + 1) := by
  constructor
  · obtain ⟨st1, hs1, hlk⟩ := add_block_store_has s pb st hst hfw
    have htfl1 : (s.add_block pb).1.transition_frontier_length = none :=
      (add_block_pres s pb).1.trans htfl
    set sOne := (s.add_block pb).1 with hsOne
    unfold IndexerState.add_block
    rw [prune_eq_of_none sOne htfl1]
    dsimp only
    have hdup : sOne.is_block_already_in_db pb = true := by
      unfold IndexerState.is_block_already_in_db
      rw [hs1]
      simpa [Store.get_block] using hlk
    rw [if_pos hdup]
  · intro hnodup
    unfold IndexerState.add_block
    rw [prune_eq_of_none s htfl]
    rw [if_neg (by simp [hnodup])]
    rw [hst]
    dsimp only
    have hput : st.put_block pb =
        Except.ok { st with blocks := insertA st.blocks pb.state_hash pb } := by
      simp [Store.put_block, hfw]
    rw [hput]
    dsimp only
    exact (addBlockCore_pres
      { s with indexer_store := some { st with blocks := insertA st.blocks pb.state_hash pb } } pb).1

/-- Witness for `C4_amended` at a fresh state with a working store. -/
theorem C4_amended_witness :
    (exFreshStore.add_block exChildPB).1.add_block exChildPB =
      ((exFreshStore.add_block exChildPB).1, Except.ok ExtensionType.BlockNotAdded) ∧
    (exFreshStore.is_block_already_in_db exChildPB = false →
      (exFreshStore.add_block exChildPB).1.blocks_processed =
        exFreshStore.blocks_processed + 1) :=
  C4_amended exFreshStore exChildPB exStore rfl rfl rfl

/-- C5 amended: when the store write fails, `add_block` returns the
write error and the state it leaves behind is exactly the pruned input
state — every component except the root branch (which the prune gate may
already have rewritten before the write was attempted) is exactly as
before the call. -/
theorem C5_amended (s : IndexerState) (pb : PrecomputedBlock) (st : Store)
    (hst : s.indexer_store = some st) (hfw : st.failWrites = true)
    (hdup : (s.prune_root_branch).is_block_already_in_db pb = false) :
    s.add_block pb = (s.prune_root_branch, Except.error "block write failure") ∧
    (s.prune_root_branch).dangling_branches = s.dangling_branches ∧
    (s.prune_root_branch).best_tip = s.best_tip ∧
    (s.prune_root_branch).canonical_tip = s.canonical_tip ∧
    (s.prune_root_branch).diffs_map = s.diffs_map ∧
    (s.prune_root_branch).indexer_store = s.indexer_store ∧
    (s.prune_root_branch).blocks_processed = s.blocks_processed := by
  obtain ⟨rb, hp⟩ := prune_shape s
  constructor
  · unfold IndexerState.add_block
    dsimp only
    rw [if_neg (by simp [hdup])]
    have hsp : (s.prune_root_branch).indexer_store = some st := by
      rw [hp]
      exact hst
    rw [hsp]
    dsimp only
    have hput : st.put_block pb = Except.error "block write failure" := by
      simp [Store.put_block, hfw]
    rw [hput]
  · rw [hp]
    exact ⟨rfl, rfl, rfl, rfl, rfl, rfl⟩

/-- Witness for `C5_amended` at the concrete prune-firing state. -/
theorem C5_amended_witness :
    exPruneFailState.add_block (mkPB 103 102 (some 4)) =
      (exPruneFailState.prune_root_branch, Except.error "block write failure") ∧
    (exPruneFailState.prune_root_branch).dangling_branches =
      exPruneFailState.dangling_branches ∧
    (exPruneFailState.prune_root_branch).best_tip = exPruneFailState.best_tip ∧
    (exPruneFailState.prune_root_branch).canonical_tip = exPruneFailState.canonical_tip ∧
    (exPruneFailState.prune_root_branch).diffs_map = exPruneFailState.diffs_map ∧
    (exPruneFailState.prune_root_branch).indexer_store = exPruneFailState.indexer_store ∧
    (exPruneFailState.prune_root_branch).blocks_processed =
      exPruneFailState.blocks_processed :=
  C5_amended exPruneFailState (mkPB 103 102 (some 4))
    { blocks := [], ledgers := [], canonicity := [], failWrites := true } rfl rfl (by decide)

/-- C10: against a dangling branch all of whose blocks lack
`blockchain_length`, an incoming block with a known length of at least 2
is never tested for reverse or forward extension — the `unwrap_or(0)`
length window `max_length + 1 ≥ length` admits only lengths up to 1 — so
`dangling_extension` finds nothing and `add_block` falls through to a
root outcome, `BlockNotAdded`, or a new dangling branch. -/
theorem C10_no_length_window (s : IndexerState) (pb : PrecomputedBlock) (l : Nat)
    (hd : ∀ d ∈ s.dangling_branches, ∀ b ∈ d.blocks, b.blockchain_length = none)
    (hl : pb.blockchain_length = some l) (h2 : 2 ≤ l) :
    s.dangling_extension pb = (s, Except.ok none) ∧
    (∀ s1 r, s.add_block pb = (s1, Except.ok r) →
      r ≠ ExtensionType.DanglingSimpleForward ∧
      r ≠ ExtensionType.DanglingSimpleReverse ∧
      r ≠ ExtensionType.DanglingComplex) := by
  constructor
  · rw [dangling_extension_eq, danglingScan_all_none pb l hl h2 s.dangling_branches hd 0]
  · intro s1 r h
    unfold IndexerState.add_block at h
    obtain ⟨rb, hp⟩ := prune_shape s
    rw [hp] at h
    dsimp only at h
    split at h
    next hdup =>
      injection h with h1 h2
      have hr : r = ExtensionType.BlockNotAdded := (Except.ok.inj h2).symm
      subst hr
      exact ⟨fun hc => ExtensionType.noConfusion hc, fun hc => ExtensionType.noConfusion hc,
        fun hc => ExtensionType.noConfusion hc⟩
    next hdup =>
      have hcore : ∀ s0 : IndexerState, s0.dangling_branches = s.dangling_branches →
          addBlockCore s0 pb = (s1, Except.ok r) →
          r ≠ ExtensionType.DanglingSimpleForward ∧
          r ≠ ExtensionType.DanglingSimpleReverse ∧
          r ≠ ExtensionType.DanglingComplex := by
        intro s0 hds hc
        unfold addBlockCore at hc
        dsimp only at hc
        obtain ⟨_, _, _, _, _, _, _, rnone, rsome⟩ :=
          root_extension_pres { s0 with blocks_processed := s0.blocks_processed + 1 } pb
        split at hc
        next s1a e ha =>
          injection hc with h1 h2
          exact Except.noConfusion h2
        next s1a ext ha =>
          injection hc with h1 h2
          have hr : r = ext := (Except.ok.inj h2).symm
          subst hr
          by_cases hbnd : ({ s0 with blocks_processed := s0.blocks_processed + 1 } : IndexerState).is_length_within_root_bounds pb = true
          · rw [if_pos hbnd] at ha
            have hre : r = ExtensionType.RootSimple ∨ r = ExtensionType.RootComplex := by
              apply rsome
              rw [ha]
            rcases hre with hx | hx <;> subst hx <;>
              exact ⟨fun hc => ExtensionType.noConfusion hc, fun hc => ExtensionType.noConfusion hc,
                fun hc => ExtensionType.noConfusion hc⟩
          · rw [if_neg hbnd] at ha
            injection ha with hx hy
            exact Option.noConfusion (Except.ok.inj hy)
        next s1a ha =>
          have hs1a : s1a = { s0 with blocks_processed := s0.blocks_processed + 1 } := by
            by_cases hbnd : ({ s0 with blocks_processed := s0.blocks_processed + 1 } : IndexerState).is_length_within_root_bounds pb = true
            · rw [if_pos hbnd] at ha
              have hsnd : (({ s0 with blocks_processed := s0.blocks_processed + 1 } : IndexerState).root_extension pb).2 = Except.ok none := by rw [ha]
              have hfst : (({ s0 with blocks_processed := s0.blocks_processed + 1 } : IndexerState).root_extension pb).1 = s1a := by rw [ha]
              rw [← hfst, rnone hsnd]
            · rw [if_neg hbnd] at ha
              injection ha with hx hy
              exact hx.symm
          subst hs1a
          rw [dangling_extension_eq] at hc
          have hds0 : ({ s0 with blocks_processed := s0.blocks_processed + 1 } : IndexerState).dangling_branches = s.dangling_branches := hds
          rw [hds0, danglingScan_all_none pb l hl h2 s.dangling_branches hd 0] at hc
          dsimp only at hc
          injection hc with h1 h2
          have hr : r = ExtensionType.DanglingNew := (Except.ok.inj h2).symm
          subst hr
          exact ⟨fun hc => ExtensionType.noConfusion hc, fun hc => ExtensionType.noConfusion hc,
            fun hc => ExtensionType.noConfusion hc⟩
      cases hst : s.indexer_store with
      | none =>
        rw [hst] at h
        exact hcore { s with root_branch := rb, indexer_store := none } rfl h
      | some st =>
        rw [hst] at h
        dsimp only at h
        cases hput : st.put_block pb with
        | error e =>
          rw [hput] at h
          injection h with h1 h2
          exact Except.noConfusion h2
        | ok st1 =>
          rw [hput] at h
          exact hcore { s with root_branch := rb, indexer_store := some st1 } rfl h

/-- Witness for `C10_no_length_window` at a concrete state with one
length-less dangling branch and an incoming block of length 3. -/
theorem C10_witness :
    exNoLengthState.dangling_extension (mkPB 60 51 (some 3)) =
      (exNoLengthState, Except.ok none) ∧
    (∀ s1 r, exNoLengthState.add_block (mkPB 60 51 (some 3)) = (s1, Except.ok r) →
      r ≠ ExtensionType.DanglingSimpleForward ∧
      r ≠ ExtensionType.DanglingSimpleReverse ∧
      r ≠ ExtensionType.DanglingComplex) :=
  C10_no_length_window exNoLengthState (mkPB 60 51 (some 3)) 3
    (by decide) rfl (by decide)

/-- C8 amended: during a canonical promotion pass, the store's
canonicity column is updated exactly on the keys of `diffs_map`: such a
key is marked canonical when it lies in the collected canonical segment
and orphaned otherwise — regardless of its height, of whether it sits on
a side branch of the root branch, or of whether it belongs to a dangling
branch; hashes without a `diffs_map` entry (in particular the passed-over
root-branch blocks, which never receive one) keep their previous
canonicity. -/
theorem C8_amended (s : IndexerState) (st : Store) (h : Nat)
    (hst : s.indexer_store = some st) (hfw : st.failWrites = false) :
    ∃ st1, (s.update_canonical).indexer_store = some st1 ∧
      st1.get_canonicity h =
        (if (s.diffs_map.map Prod.fst).contains h then
           some (if ((canonicalWalk 0 (s.root_branch.ancestorIds s.best_tip)).1.reverse).contains h
                 then Canonicity.Canonical else Canonicity.Orphaned)
         else st.get_canonicity h) := by
  obtain ⟨p, _, _, _, _, _, _, _, _, _, _, hsome⟩ := update_canonical_master s
  obtain ⟨st1, h1, _, _, hcanon⟩ := hsome st hst
  exact ⟨st1, h1, hcanon hfw h⟩

/-- Witness for `C8_amended`: on a state whose only diffs entry is the
dangling hash `200`, the promotion pass marks `200` orphaned. -/
theorem C8_amended_witness :
    ∃ st1, (exDiffState.update_canonical).indexer_store = some st1 ∧
      st1.get_canonicity 200 =
        (if (exDiffState.diffs_map.map Prod.fst).contains 200 then
           some (if ((canonicalWalk 0 (exDiffState.root_branch.ancestorIds exDiffState.best_tip)).1.reverse).contains 200
                 then Canonicity.Canonical else Canonicity.Orphaned)
         else exStore.get_canonicity 200) :=
  C8_amended exDiffState exStore 200 rfl rfl

theorem canonicalWalk_spec (l : List Nat) :
    ∀ n, n ≤ MAINNET_CANONICAL_THRESHOLD + 1 →
      canonicalWalk n l = (l.take (MAINNET_CANONICAL_THRESHOLD + 1 - n),
        l.get? (MAINNET_CANONICAL_THRESHOLD + 1 - n)) := by
  induction l with
  | nil =>
    intro n hn
    simp [canonicalWalk]
  | cons a rest ih =>
    intro n hn
    unfold canonicalWalk
    by_cases h10 : n ≤ MAINNET_CANONICAL_THRESHOLD
    · rw [if_pos h10, ih (n + 1) (by omega)]
      have hsucc : MAINNET_CANONICAL_THRESHOLD + 1 - n =
          (MAINNET_CANONICAL_THRESHOLD + 1 - (n + 1)) + 1 := by
        simp only [MAINNET_CANONICAL_THRESHOLD] at h10 ⊢
        omega
      rw [hsucc]
      simp [List.take_succ_cons]
    · rw [if_neg h10]
      have hz : MAINNET_CANONICAL_THRESHOLD + 1 - n = 0 := by
        simp only [MAINNET_CANONICAL_THRESHOLD] at h10 hn ⊢
        omega
      rw [hz]
      simp

theorem ancestorsHeightOk_zero (br : Branch) (l : List Nat) :
    ancestorsHeightOk br l 0 = false := by
  induction l with
  | nil => rfl
  | cons a rest ih =>
    unfold ancestorsHeightOk
    cases hlk : br.lookup a with
    | none => rfl
    | some ab =>
      simp [ih]

theorem ancestorsHeightOk_length (br : Branch) (l : List Nat) :
    ∀ h, ancestorsHeightOk br l h = true → l.length = h - 1 := by
  induction l with
  | nil =>
    intro h hok
    unfold ancestorsHeightOk at hok
    have h1 : h = 1 := by simpa using hok
    simp [h1]
  | cons a rest ih =>
    intro h hok
    unfold ancestorsHeightOk at hok
    cases hlk : br.lookup a with
    | none => rw [hlk] at hok; exact Bool.noConfusion hok
    | some ab =>
      rw [hlk] at hok
      replace hok : (ab.height == h - 1 && ancestorsHeightOk br rest (h - 1)) = true := hok
      rw [Bool.and_eq_true] at hok
      have h2 := hok.2
      have hlen := ih (h - 1) h2
      rcases Nat.lt_or_ge h 2 with hlt | hge
      · have h0 : h - 1 = 0 := by omega
        rw [h0, ancestorsHeightOk_zero] at h2
        exact Bool.noConfusion h2
      · simp only [List.length_cons, hlen]
        omega

theorem ancestorsHeightOk_get (br : Branch) (l : List Nat) :
    ∀ h, ancestorsHeightOk br l h = true →
      ∀ i a, l.get? i = some a →
        ∃ ab, br.lookup a = some ab ∧ ab.height = h - 1 - i := by
  induction l with
  | nil =>
    intro h _ i a hi
    simp [List.get?] at hi
  | cons x rest ih =>
    intro h hok i a hi
    unfold ancestorsHeightOk at hok
    cases hlk : br.lookup x with
    | none => rw [hlk] at hok; exact Bool.noConfusion hok
    | some xb =>
      rw [hlk] at hok
      replace hok : (xb.height == h - 1 && ancestorsHeightOk br rest (h - 1)) = true := hok
      rw [Bool.and_eq_true] at hok
      have h1 : xb.height = h - 1 := by simpa using hok.1
      have h2 := hok.2
      cases i with
      | zero =>
        have hax : a = x := by simpa [List.get?] using hi.symm
        subst hax
        exact ⟨xb, hlk, by rw [h1]; omega⟩
      | succ j =>
        obtain ⟨ab, hab, hh⟩ := ih (h - 1) h2 j a (by simpa [List.get?] using hi)
        exact ⟨ab, hab, by rw [hh]; omega⟩

/-- C1 amended: the promotion walk excludes `best_tip` itself: the
collected canonical segment is the first
`MAINNET_CANONICAL_THRESHOLD + 1` proper ancestors of `best_tip`, and
when `best_tip` has at least `MAINNET_CANONICAL_THRESHOLD + 2` proper
ancestors the new `canonical_tip` is the ancestor at depth exactly
`MAINNET_CANONICAL_THRESHOLD + 2` below `best_tip` (not
`min(MAINNET_CANONICAL_THRESHOLD, best_tip.height - 1)` as claimed);
with fewer ancestors the canonical tip is left unchanged. -/
theorem C1_amended (s : IndexerState) (tb : Block)
    (htb : s.root_branch.lookup s.best_tip = some tb)
    (hpath : pathConsistent s.root_branch s.best_tip = true) :
    (canonicalWalk 0 (s.root_branch.ancestorIds s.best_tip)).1 =
      (s.root_branch.ancestorIds s.best_tip).take (MAINNET_CANONICAL_THRESHOLD + 1) ∧
    (MAINNET_CANONICAL_THRESHOLD + 2 ≤ tb.height - 1 →
      ∃ cb, (s.update_canonical).root_branch.lookup (s.update_canonical).canonical_tip = some cb ∧
        cb.height = tb.height - (MAINNET_CANONICAL_THRESHOLD + 2)) ∧
    (tb.height - 1 < MAINNET_CANONICAL_THRESHOLD + 2 →
      (s.update_canonical).canonical_tip = s.canonical_tip) := by
  have hok : ancestorsHeightOk s.root_branch (s.root_branch.ancestorIds s.best_tip) tb.height = true := by
    unfold pathConsistent at hpath
    rw [htb] at hpath
    exact hpath
  have hlen := ancestorsHeightOk_length s.root_branch (s.root_branch.ancestorIds s.best_tip) tb.height hok
  have hwalk := canonicalWalk_spec (s.root_branch.ancestorIds s.best_tip) 0 (Nat.zero_le _)
  obtain ⟨p, _, hroot, _, _, _, _, _, _, hcanon, _, _⟩ := update_canonical_master s
  refine ⟨?_, ?_, ?_⟩
  · simp [hwalk]
  · intro h12
    have hlt : MAINNET_CANONICAL_THRESHOLD + 1 <
        (s.root_branch.ancestorIds s.best_tip).length := by omega
    cases hget : (s.root_branch.ancestorIds s.best_tip).get? (MAINNET_CANONICAL_THRESHOLD + 1) with
    | none =>
      rw [List.get?_eq_none] at hget
      omega
    | some a =>
      obtain ⟨ab, hab, hh⟩ := ancestorsHeightOk_get s.root_branch
        (s.root_branch.ancestorIds s.best_tip) tb.height hok
        (MAINNET_CANONICAL_THRESHOLD + 1) a hget
      refine ⟨ab, ?_, ?_⟩
      · rw [hroot, hcanon, hwalk]
        dsimp only
        have hg0 : (s.root_branch.ancestorIds s.best_tip).get?
            (MAINNET_CANONICAL_THRESHOLD + 1 - 0) = some a := hget
        rw [hg0]
        exact hab
      · rw [hh]
        simp only [MAINNET_CANONICAL_THRESHOLD]
        omega
  · intro hlt
    rw [hcanon, hwalk]
    have hnone : (s.root_branch.ancestorIds s.best_tip).get?
        (MAINNET_CANONICAL_THRESHOLD + 1 - 0) = none := by
      rw [List.get?_eq_none]
      omega
    rw [hnone]
    rfl

/-- Witness for `C1_amended`: on a best tip of height 13 (twelve proper
ancestors), the walk collects the first eleven ancestors and the new
canonical tip sits at height `13 - 12 = 1`. -/
theorem C1_amended_witness :
    (canonicalWalk 0 (exHeight13State.root_branch.ancestorIds exHeight13State.best_tip)).1 =
      (exHeight13State.root_branch.ancestorIds exHeight13State.best_tip).take
        (MAINNET_CANONICAL_THRESHOLD + 1) ∧
    (MAINNET_CANONICAL_THRESHOLD + 2 ≤ exTip13.height - 1 →
      ∃ cb, (exHeight13State.update_canonical).root_branch.lookup
          (exHeight13State.update_canonical).canonical_tip = some cb ∧
        cb.height = exTip13.height - (MAINNET_CANONICAL_THRESHOLD + 2)) ∧
    (exTip13.height - 1 < MAINNET_CANONICAL_THRESHOLD + 2 →
      (exHeight13State.update_canonical).canonical_tip = exHeight13State.canonical_tip) :=
  C1_amended exHeight13State exTip13 (by decide) (by decide)

theorem rootMergeScan_err (pb : PrecomputedBlock) (nid : Nat) :
    ∀ (ds : List Branch) (rb : Branch) (i : Nat),
      ds.any (fun b => same_block_added_twice b pb) = true →
      (rootMergeScan pb nid rb ds i).2.2 = true := by
  intro ds
  induction ds with
  | nil => intro rb i h; simp at h
  | cons d rest ih =>
    intro rb i h
    unfold rootMergeScan
    dsimp only
    by_cases hd : same_block_added_twice d pb = true
    · rw [if_pos hd]
    · rw [if_neg hd]
      simp only [List.any_cons, Bool.or_eq_true] at h
      exact ih _ (i + 1) (h.resolve_left hd)

theorem root_extension_err (s : IndexerState) (pb : PrecomputedBlock)
    (hpar : (s.root_branch.lookup pb.parent_hash).isSome = true)
    (hdup : s.dangling_branches.any (fun b => same_block_added_twice b pb) = true) :
    (s.root_extension pb).2 =
      Except.error "Same block added twice to the indexer state" := by
  unfold IndexerState.root_extension
  cases hlk : s.root_branch.lookup pb.parent_hash with
  | none => rw [hlk] at hpar; exact Bool.noConfusion hpar
  | some parent =>
    have hse : s.root_branch.simple_extension pb =
        some ({ s.root_branch with blocks :=
          s.root_branch.blocks ++ [Block.ofPrecomputed pb (parent.height + 1)] },
          pb.state_hash) := by
      unfold Branch.simple_extension
      rw [hlk]
    rw [hse]
    dsimp only
    split
    · rfl
    next hfalse =>
      exfalso
      apply hfalse
      exact rootMergeScan_err pb pb.state_hash _ _ 0
        (by rw [(ubc_pres _).2.1]; exact hdup)

theorem danglingScan_dup_head (pb : PrecomputedBlock) (d : Branch)
    (rest : List Branch) (i : Nat)
    (hw : danglingWindowOk d pb = true)
    (hrev : is_reverse_extension d pb = false)
    (hfwd : d.simple_extension pb = none)
    (hdup : same_block_added_twice d pb = true) :
    (danglingScan pb (d :: rest) i).2 =
      Except.error "Same block added twice to the indexer state" := by
  unfold danglingScan
  unfold danglingWindowOk at hw
  cases hpl : pb.blockchain_length with
  | some length =>
    rw [hpl] at hw
    dsimp only at hw ⊢
    rw [if_pos hw]
    rw [if_neg (by rw [hrev]; exact Bool.false_ne_true)]
    rw [hfwd]
    dsimp only
    rw [if_pos hdup]
  | none =>
    rw [hpl] at hw
    dsimp only
    rw [if_pos rfl]
    rw [if_neg (by rw [hrev]; exact Bool.false_ne_true)]
    rw [hfwd]
    dsimp only
    rw [if_pos hdup]

/-- C3 amended: when the incoming block's hash duplicates the root of a
dangling branch reached by the dispatch — either after the block also
extended the root branch (any dangling branch with this root hash) or
when the block is tested against the sole dangling branch whose length
window admits it and which it extends neither in reverse nor forward —
`add_block` fails with the error
`Same block added twice to the indexer state` instead of returning the
value `BlockNotAdded`. -/
theorem C3_amended (s : IndexerState) (d : Branch) (pb : PrecomputedBlock)
    (htfl : s.transition_frontier_length = none)
    (hstore : s.indexer_store = none)
    (hcase :
      (s.is_length_within_root_bounds pb = true ∧
       (s.root_branch.lookup pb.parent_hash).isSome = true ∧
       s.dangling_branches.any (fun b => same_block_added_twice b pb) = true) ∨
      (s.root_branch.lookup pb.parent_hash = none ∧
       s.dangling_branches = [d] ∧
       danglingWindowOk d pb = true ∧
       is_reverse_extension d pb = false ∧
       d.lookup pb.parent_hash = none ∧
       same_block_added_twice d pb = true)) :
    (s.add_block pb).2 =
      Except.error "Same block added twice to the indexer state" := by
  unfold IndexerState.add_block
  rw [prune_eq_of_none s htfl]
  dsimp only
  have hdb : s.is_block_already_in_db pb = false := by
    unfold IndexerState.is_block_already_in_db
    rw [hstore]
  rw [if_neg (by rw [hdb]; exact Bool.false_ne_true)]
  rw [hstore]
  dsimp only
  unfold addBlockCore
  dsimp only
  rcases hcase with ⟨hb, hpar, hdup⟩ | ⟨hnp, hds, hw, hrev, hfwd, hdup⟩
  · have hb0 : ({ s with blocks_processed := s.blocks_processed + 1 } :
        IndexerState).is_length_within_root_bounds pb = true := hb
    rw [if_pos hb0]
    have herr := root_extension_err
      { s with blocks_processed := s.blocks_processed + 1 } pb hpar hdup
    cases hre : ({ s with blocks_processed := s.blocks_processed + 1 } :
        IndexerState).root_extension pb with
    | mk s1 r =>
      rw [hre] at herr
      dsimp only at herr
      subst herr
      rfl
  · have hroot : ({ s with blocks_processed := s.blocks_processed + 1 } :
        IndexerState).root_extension pb =
        ({ s with blocks_processed := s.blocks_processed + 1 }, Except.ok none) := by
      unfold IndexerState.root_extension
      have hse : ({ s with blocks_processed := s.blocks_processed + 1 } :
          IndexerState).root_branch.simple_extension pb = none := by
        unfold Branch.simple_extension
        rw [show ({ s with blocks_processed := s.blocks_processed + 1 } :
          IndexerState).root_branch.lookup pb.parent_hash = none from hnp]
      rw [hse]
    have hstep : (if ({ s with blocks_processed := s.blocks_processed + 1 } :
        IndexerState).is_length_within_root_bounds pb then
          ({ s with blocks_processed := s.blocks_processed + 1 } :
            IndexerState).root_extension pb
        else ({ s with blocks_processed := s.blocks_processed + 1 }, Except.ok none)) =
        ({ s with blocks_processed := s.blocks_processed + 1 }, Except.ok none) := by
      split
      · exact hroot
      · rfl
    rw [hstep]
    dsimp only
    rw [dangling_extension_eq]
    have hfwdSE : d.simple_extension pb = none := by
      unfold Branch.simple_extension
      rw [hfwd]
    have hscan : (danglingScan pb ({ s with blocks_processed := s.blocks_processed + 1 } :
        IndexerState).dangling_branches 0).2 =
        Except.error "Same block added twice to the indexer state" := by
      rw [show ({ s with blocks_processed := s.blocks_processed + 1 } :
        IndexerState).dangling_branches = [d] from hds]
      exact danglingScan_dup_head pb d [] 0 hw hrev hfwdSE hdup
    cases hsc : danglingScan pb ({ s with blocks_processed := s.blocks_processed + 1 } :
        IndexerState).dangling_branches 0 with
    | mk ds2 r2 =>
      rw [hsc] at hscan
      dsimp only at hscan
      subst hscan
      rfl

/-- Witness for `C3_amended`: re-adding the dangling root `105` to the
state holding the single dangling branch rooted at `105` fails with the
duplicate error. -/
theorem C3_amended_witness :
    (exDanglingState.add_block exDanglingPB).2 =
      Except.error "Same block added twice to the indexer state" :=
  C3_amended exDanglingState (Branch.ofBlock exDanglingPB) exDanglingPB
    (by decide) (by decide)
    (Or.inr ⟨by decide, by decide, by decide, by decide, by decide, by decide⟩)

theorem find_append_some {α : Type} (p : α → Bool) (l1 l2 : List α) (x : α)
    (h : l1.find? p = some x) : (l1 ++ l2).find? p = some x := by
  induction l1 with
  | nil => exact Option.noConfusion h
  | cons a rest ih =>
    simp only [List.cons_append, List.find?] at h ⊢
    cases hpa : p a with
    | true => rw [hpa] at h; exact h
    | false => rw [hpa] at h; exact ih h

theorem find_append_none {α : Type} (p : α → Bool) (l1 l2 : List α)
    (h : l1.find? p = none) : (l1 ++ l2).find? p = l2.find? p := by
  induction l1 with
  | nil => rfl
  | cons a rest ih =>
    simp only [List.cons_append, List.find?] at h ⊢
    cases hpa : p a with
    | true => rw [hpa] at h; exact Option.noConfusion h
    | false => rw [hpa] at h; exact ih h

theorem find_perm_of_unique {α : Type} (p : α → Bool) (l1 l2 : List α)
    (hp : l1.Perm l2)
    (hu : ∀ a ∈ l1, ∀ b ∈ l1, p a = true → p b = true → a = b) :
    l1.find? p = l2.find? p := by
  cases h1 : l1.find? p with
  | none =>
    cases h2 : l2.find? p with
    | none => rfl
    | some y =>
      exfalso
      have hy1 : y ∈ l1 := hp.symm.subset (List.mem_of_find?_eq_some h2)
      exact List.find?_eq_none.mp h1 y hy1 (List.find?_some h2)
  | some x =>
    cases h2 : l2.find? p with
    | none =>
      exfalso
      have hx1 : x ∈ l1 := List.mem_of_find?_eq_some h1
      exact List.find?_eq_none.mp h2 x (hp.subset hx1) (List.find?_some h1)
    | some y =>
      have hx1 : x ∈ l1 := List.mem_of_find?_eq_some h1
      have hy1 : y ∈ l1 := hp.symm.subset (List.mem_of_find?_eq_some h2)
      rw [hu x hx1 y hy1 (List.find?_some h1) (List.find?_some h2)]

theorem any_perm {α : Type} (l1 l2 : List α) (hp : l1.Perm l2) (f : α → Bool) :
    l1.any f = l2.any f := by
  cases h1 : l1.any f with
  | true =>
    rw [List.any_eq_true] at h1
    obtain ⟨x, hx, hfx⟩ := h1
    exact (List.any_eq_true.mpr ⟨x, hp.subset hx, hfx⟩).symm
  | false =>
    cases h2 : l2.any f with
    | false => rfl
    | true =>
      exfalso
      rw [List.any_eq_true] at h2
      obtain ⟨x, hx, hfx⟩ := h2
      have hc : l1.any f = true := List.any_eq_true.mpr ⟨x, hp.symm.subset hx, hfx⟩
      rw [h1] at hc
      exact Bool.noConfusion hc

theorem keyLt_iff (a b : Block) : keyLt a b = true ↔
    (a.blockchain_length.getD 0 < b.blockchain_length.getD 0 ∨
     (a.blockchain_length.getD 0 = b.blockchain_length.getD 0 ∧
      a.state_hash < b.state_hash)) := by
  unfold keyLt Block.key
  dsimp only
  rw [Bool.or_eq_true, Bool.and_eq_true]
  simp [decide_eq_true_eq]

theorem keyLt_irrefl (a : Block) : keyLt a a = false := by
  cases h : keyLt a a with
  | false => rfl
  | true => exfalso; rw [keyLt_iff] at h; omega

theorem keyLt_trans (a b c : Block) (h1 : keyLt a b = true) (h2 : keyLt b c = true) :
    keyLt a c = true := by
  rw [keyLt_iff] at h1 h2 ⊢
  omega

theorem keyLt_le_trans (m b a : Block) (h1 : keyLt m b = true) (h2 : keyLt a b = false) :
    keyLt m a = true := by
  have h2a : ¬ (keyLt a b = true) := by simp [h2]
  rw [keyLt_iff] at h1 h2a ⊢
  omega

theorem keyLt_hash_eq (a b : Block) (h1 : keyLt a b = false) (h2 : keyLt b a = false) :
    a.state_hash = b.state_hash := by
  have h1a : ¬ (keyLt a b = true) := by simp [h1]
  have h2a : ¬ (keyLt b a = true) := by simp [h2]
  rw [keyLt_iff] at h1a h2a
  omega

theorem pickBest_max_aux (l : List Block) :
    ∀ (acc : Option Block) (m : Block),
      l.foldl (fun acc b => match acc with
        | none => some b
        | some a => if keyLt a b then some b else some a) acc = some m →
      (∀ b ∈ l, keyLt m b = false) ∧ (∀ a, acc = some a → keyLt m a = false) := by
  induction l with
  | nil =>
    intro acc m h
    refine ⟨by intro b hb; simp at hb, ?_⟩
    intro a ha
    rw [ha] at h
    have he : a = m := Option.some.inj h
    subst he
    exact keyLt_irrefl a
  | cons x rest ih =>
    intro acc m h
    rw [List.foldl_cons] at h
    obtain ⟨hrest, hacc⟩ := ih _ m h
    cases acc with
    | none =>
      have hx : keyLt m x = false := hacc x rfl
      refine ⟨?_, fun a ha => Option.noConfusion ha⟩
      intro b hb
      rcases List.mem_cons.mp hb with hbx | hbr
      · rw [hbx]; exact hx
      · exact hrest b hbr
    | some a =>
      by_cases hk : keyLt a x = true
      · have hfx : (fun acc b => match acc with
            | none => some b
            | some c => if keyLt c b then some b else some c)
            (some a) x = some x := by
          dsimp only
          rw [if_pos hk]
        have hax : keyLt m x = false := hacc x hfx
        have hma : keyLt m a = false := by
          cases hC : keyLt m a with
          | false => rfl
          | true =>
            exfalso
            have ht := keyLt_trans m a x hC hk
            rw [hax] at ht
            exact Bool.noConfusion ht
        refine ⟨?_, ?_⟩
        · intro b hb
          rcases List.mem_cons.mp hb with hbx | hbr
          · rw [hbx]; exact hax
          · exact hrest b hbr
        · intro a0 ha0
          have he : a0 = a := (Option.some.inj ha0).symm
          rw [he]; exact hma
      · have hfa : (fun acc b => match acc with
            | none => some b
            | some c => if keyLt c b then some b else some c)
            (some a) x = some a := by
          dsimp only
          rw [if_neg hk]
        have hma : keyLt m a = false := hacc a hfa
        have hmx : keyLt m x = false := by
          cases hC : keyLt m x with
          | false => rfl
          | true =>
            exfalso
            have ht := keyLt_le_trans m x a hC (by
              cases hD : keyLt a x with
              | false => rfl
              | true => exact absurd hD hk)
            rw [hma] at ht
            exact Bool.noConfusion ht
        refine ⟨?_, ?_⟩
        · intro b hb
          rcases List.mem_cons.mp hb with hbx | hbr
          · rw [hbx]; exact hmx
          · exact hrest b hbr
        · intro a0 ha0
          have he : a0 = a := (Option.some.inj ha0).symm
          rw [he]; exact hma

theorem pickBest_max (l : List Block) (m : Block) (h : pickBest l = some m) :
    ∀ b ∈ l, keyLt m b = false :=
  (pickBest_max_aux l none m h).1

theorem pickBest_some_aux (l : List Block) : ∀ (a : Block),
    l.foldl (fun acc b => match acc with
      | none => some b
      | some c => if keyLt c b then some b else some c) (some a) ≠ none := by
  induction l with
  | nil => intro a h; exact Option.noConfusion h
  | cons x rest ih =>
    intro a
    rw [List.foldl_cons]
    dsimp only
    by_cases hk : keyLt a x = true
    · rw [if_pos hk]; exact ih x
    · rw [if_neg hk]; exact ih a

theorem pickBest_eq_none (l : List Block) (h : pickBest l = none) : l = [] := by
  cases l with
  | nil => rfl
  | cons x rest => exact absurd h (pickBest_some_aux rest x)

theorem pickBest_perm (l1 l2 : List Block) (hp : l1.Perm l2)
    (hnd : (l1.map Block.state_hash).Nodup) :
    pickBest l1 = pickBest l2 := by
  cases h1 : pickBest l1 with
  | none =>
    have he : l1 = [] := pickBest_eq_none l1 h1
    subst he
    have he2 : l2 = [] := hp.symm.eq_nil
    subst he2
    rfl
  | some m1 =>
    cases h2 : pickBest l2 with
    | none =>
      exfalso
      have he2 : l2 = [] := pickBest_eq_none l2 h2
      subst he2
      have he : l1 = [] := hp.eq_nil
      subst he
      exact Option.noConfusion h1
    | some m2 =>
      have hm1 : m1 ∈ l1 := pickBest_mem l1 m1 h1
      have hm2 : m2 ∈ l1 := hp.symm.subset (pickBest_mem l2 m2 h2)
      have h12 : keyLt m1 m2 = false := pickBest_max l1 m1 h1 m2 hm2
      have h21 : keyLt m2 m1 = false := pickBest_max l2 m2 h2 m1 (hp.subset hm1)
      have hh : m1.state_hash = m2.state_hash := keyLt_hash_eq m1 m2 h12 h21
      rw [List.inj_on_of_nodup_map hnd hm1 hm2 hh]

theorem lookup_perm_of_nodup (b1 b2 : Branch) (hp : b1.blocks.Perm b2.blocks)
    (hnd : (b1.blocks.map Block.state_hash).Nodup) (h : Nat) :
    b1.lookup h = b2.lookup h := by
  unfold Branch.lookup
  apply find_perm_of_unique _ _ _ hp
  intro a ha b hb hpa hpb
  have ha2 : a.state_hash = h := by simpa using hpa
  have hb2 : b.state_hash = h := by simpa using hpb
  exact List.inj_on_of_nodup_map hnd ha hb (by rw [ha2, hb2])

theorem ancestorsGo_ext (b1 b2 : Branch)
    (hlk : ∀ h, b1.lookup h = b2.lookup h) :
    ∀ fuel h, b1.ancestorsGo fuel h = b2.ancestorsGo fuel h := by
  intro fuel
  induction fuel with
  | zero => intro h; rfl
  | succ n ih =>
    intro h
    unfold Branch.ancestorsGo
    rw [hlk h]
    cases b2.lookup h with
    | none => rfl
    | some blk =>
      dsimp only
      rw [hlk blk.parent_hash]
      cases b2.lookup blk.parent_hash with
      | none => rfl
      | some p =>
        dsimp only
        rw [ih blk.parent_hash]

theorem ancestorIds_perm (b1 b2 : Branch) (hp : b1.blocks.Perm b2.blocks)
    (hnd : (b1.blocks.map Block.state_hash).Nodup) (h : Nat) :
    b1.ancestorIds h = b2.ancestorIds h := by
  unfold Branch.ancestorIds
  rw [hp.length_eq]
  exact ancestorsGo_ext b1 b2 (lookup_perm_of_nodup b1 b2 hp hnd) _ h

theorem leaves_perm (b1 b2 : Branch) (hp : b1.blocks.Perm b2.blocks) :
    b1.leaves.Perm b2.leaves := by
  unfold Branch.leaves
  have h1 : b1.blocks.filter
        (fun b => !(b1.blocks.any (fun c => c.parent_hash == b.state_hash))) =
      b1.blocks.filter
        (fun b => !(b2.blocks.any (fun c => c.parent_hash == b.state_hash))) := by
    apply List.filter_congr
    intro x _
    rw [any_perm _ _ hp]
  rw [h1]
  exact hp.filter _

theorem best_tip_perm (b1 b2 : Branch) (hp : b1.blocks.Perm b2.blocks)
    (hnd : (b1.blocks.map Block.state_hash).Nodup) :
    b1.best_tip = b2.best_tip := by
  unfold Branch.best_tip
  have hndl : (b1.leaves.map Block.state_hash).Nodup :=
    hnd.sublist ((List.filter_sublist _).map _)
  exact pickBest_perm b1.leaves b2.leaves (leaves_perm b1 b2 hp) hndl

theorem ubt_fields (s : IndexerState) :
    s.update_best_tip = { s with best_tip := ubtNew s } := by
  unfold IndexerState.update_best_tip ubtNew
  cases s.root_branch.best_tip with
  | none => rfl
  | some b => rfl

theorem uc_none (s : IndexerState) (hst : s.indexer_store = none) :
    s.update_canonical =
      { s with canonical_tip := ucNewTip s,
               diffs_map := s.diffs_map.filter (ucDiffPred s) } := by
  unfold IndexerState.update_canonical
  dsimp only
  rw [ledgerStep_eq_none
    { s with canonical_tip :=
        (canonicalWalk 0 (s.root_branch.ancestorIds s.best_tip)).2.getD s.canonical_tip }
    s.canonical_tip
    ((canonicalWalk 0 (s.root_branch.ancestorIds s.best_tip)).1.reverse) hst]
  rw [show ({ s with canonical_tip :=
      (canonicalWalk 0 (s.root_branch.ancestorIds s.best_tip)).2.getD s.canonical_tip } :
      IndexerState).indexer_store = none from hst]
  rfl

theorem ubc_none_eq (s : IndexerState) (hst : s.indexer_store = none) :
    s.update_best_tip.update_canonical =
      { s with best_tip := ubtNew s,
               canonical_tip := ucNewTip { s with best_tip := ubtNew s },
               diffs_map := s.diffs_map.filter
                 (ucDiffPred { s with best_tip := ubtNew s }) } := by
  rw [ubt_fields s]
  rw [uc_none { s with best_tip := ubtNew s } hst]

theorem ubc_perm (s t : IndexerState)
    (hsn : s.indexer_store = none) (htn : t.indexer_store = none)
    (hperm : s.root_branch.blocks.Perm t.root_branch.blocks)
    (hnd : (s.root_branch.blocks.map Block.state_hash).Nodup)
    (hbt : s.best_tip = t.best_tip) (hct : s.canonical_tip = t.canonical_tip)
    (hdm : s.diffs_map = t.diffs_map) :
    (s.update_best_tip.update_canonical).best_tip =
      (t.update_best_tip.update_canonical).best_tip ∧
    (s.update_best_tip.update_canonical).canonical_tip =
      (t.update_best_tip.update_canonical).canonical_tip ∧
    (s.update_best_tip.update_canonical).diffs_map =
      (t.update_best_tip.update_canonical).diffs_map := by
  have hlk : ∀ h, s.root_branch.lookup h = t.root_branch.lookup h :=
    lookup_perm_of_nodup s.root_branch t.root_branch hperm hnd
  have hanc : ∀ h, s.root_branch.ancestorIds h = t.root_branch.ancestorIds h :=
    fun h => ancestorIds_perm s.root_branch t.root_branch hperm hnd h
  have hbtB : s.root_branch.best_tip = t.root_branch.best_tip :=
    best_tip_perm s.root_branch t.root_branch hperm hnd
  have hubt : ubtNew s = ubtNew t := by
    unfold ubtNew
    rw [hbtB, hbt]
  rw [ubc_none_eq s hsn, ubc_none_eq t htn]
  dsimp only
  refine ⟨hubt, ?_, ?_⟩
  · unfold ucNewTip
    dsimp only
    rw [hanc, hubt, hct]
  · rw [hdm]
    apply List.filter_congr
    intro kv _
    unfold ucDiffPred ucNewTip
    dsimp only
    simp only [Branch.inSubtree, hanc, hlk, hct, hubt]
    rw [any_perm _ _ hperm]

theorem merge_on_blocks (rb o : Branch) (target : Nat) (t : Block)
    (hlk : rb.lookup target = some t)
    (hpre : (o.root_block.parent_hash == t.state_hash) = true) :
    rb.merge_on target o =
      { rb with blocks := rb.blocks ++
          o.blocks.map (fun b => { b with height := t.height + b.height }) } := by
  unfold Branch.merge_on
  rw [hlk]
  dsimp only
  rw [if_pos hpre]

theorem rootMergeScan_two (pb : PrecomputedBlock) (nid : Nat) (rb : Branch)
    (D1 D2 : Branch) (i : Nat)
    (h1 : is_reverse_extension D1 pb = true) (h2 : is_reverse_extension D2 pb = true)
    (hd1 : same_block_added_twice D1 pb = false)
    (hd2 : same_block_added_twice D2 pb = false) :
    rootMergeScan pb nid rb [D1, D2] i =
      ((rb.merge_on nid D1).merge_on nid D2, [i, i + 1], false) := by
  simp only [rootMergeScan]
  rw [h1, hd1, h2, hd2]
  rfl

theorem root_extension_bridge (q : IndexerState) (Da Db : Branch)
    (pb : PrecomputedBlock) (parent : Block)
    (hqd : q.dangling_branches = [Da, Db])
    (hqn : q.indexer_store = none)
    (hlk : q.root_branch.lookup pb.parent_hash = some parent)
    (hreva : is_reverse_extension Da pb = true)
    (hrevb : is_reverse_extension Db pb = true)
    (hdupa : same_block_added_twice Da pb = false)
    (hdupb : same_block_added_twice Db pb = false) :
    q.root_extension pb =
      (bridgeResult q Da Db pb parent, Except.ok (some ExtensionType.RootComplex)) := by
  have hse : q.root_branch.simple_extension pb =
      some (bridgeRb1 q pb parent, pb.state_hash) := by
    unfold Branch.simple_extension bridgeRb1
    rw [hlk]
  unfold IndexerState.root_extension
  rw [hse]
  dsimp only
  have hPd : (({ q with root_branch := bridgeRb1 q pb parent } :
      IndexerState).update_best_tip.update_canonical).dangling_branches = [Da, Db] := by
    rw [ubc_none_eq { q with root_branch := bridgeRb1 q pb parent } hqn]
    exact hqd
  have hPrb : (({ q with root_branch := bridgeRb1 q pb parent } :
      IndexerState).update_best_tip.update_canonical).root_branch =
      bridgeRb1 q pb parent := by
    rw [ubc_none_eq { q with root_branch := bridgeRb1 q pb parent } hqn]
  rw [hPd, hPrb]
  rw [rootMergeScan_two pb pb.state_hash _ Da Db 0 hreva hrevb hdupa hdupb]
  unfold bridgeResult bridgeMid bridgeMerged
  rfl

theorem add_block_bridge (s : IndexerState) (Da Db : Branch)
    (pb : PrecomputedBlock) (parent : Block)
    (hsd : s.dangling_branches = [Da, Db])
    (hstore : s.indexer_store = none)
    (htfl : s.transition_frontier_length = none)
    (hb : s.is_length_within_root_bounds pb = true)
    (hlk : s.root_branch.lookup pb.parent_hash = some parent)
    (hreva : is_reverse_extension Da pb = true)
    (hrevb : is_reverse_extension Db pb = true)
    (hdupa : same_block_added_twice Da pb = false)
    (hdupb : same_block_added_twice Db pb = false) :
    s.add_block pb =
      (bridgeResult { s with blocks_processed := s.blocks_processed + 1 } Da Db pb parent,
       Except.ok ExtensionType.RootComplex) := by
  unfold IndexerState.add_block
  rw [prune_eq_of_none s htfl]
  dsimp only
  have hdb : s.is_block_already_in_db pb = false := by
    unfold IndexerState.is_block_already_in_db
    rw [hstore]
  rw [if_neg (by rw [hdb]; exact Bool.false_ne_true)]
  rw [hstore]
  dsimp only
  unfold addBlockCore
  dsimp only
  have hb0 : ({ s with blocks_processed := s.blocks_processed + 1 } :
      IndexerState).is_length_within_root_bounds pb = true := hb
  rw [if_pos hb0]
  rw [root_extension_bridge { s with blocks_processed := s.blocks_processed + 1 }
    Da Db pb parent hsd hstore hlk hreva hrevb hdupa hdupb]
  rw [hstore]

theorem merge_on_root (rb : Branch) (t : Nat) (o : Branch) :
    (rb.merge_on t o).root = rb.root := by
  unfold Branch.merge_on
  split
  · split
    · rfl
    · rfl
  · rfl

theorem bridgeResult_components (q qq : IndexerState) (Da Db : Branch)
    (pb : PrecomputedBlock) (parent : Block)
    (hqn : q.indexer_store = none) (hqn2 : qq.indexer_store = none)
    (hrb : q.root_branch = qq.root_branch)
    (hbt : q.best_tip = qq.best_tip) (hct : q.canonical_tip = qq.canonical_tip)
    (hdm : q.diffs_map = qq.diffs_map) (hbp : q.blocks_processed = qq.blocks_processed)
    (hndAll : ((q.root_branch.blocks.map Block.state_hash ++ [pb.state_hash]) ++
        Da.blocks.map Block.state_hash ++ Db.blocks.map Block.state_hash).Nodup)
    (hpre1 : (Da.root_block.parent_hash == pb.state_hash) = true)
    (hpre2 : (Db.root_block.parent_hash == pb.state_hash) = true) :
    (bridgeResult q Da Db pb parent).root_branch.root =
      (bridgeResult qq Db Da pb parent).root_branch.root ∧
    ((bridgeResult q Da Db pb parent).root_branch.blocks).Perm
      ((bridgeResult qq Db Da pb parent).root_branch.blocks) ∧
    (bridgeResult q Da Db pb parent).dangling_branches = [] ∧
    (bridgeResult qq Db Da pb parent).dangling_branches = [] ∧
    (bridgeResult q Da Db pb parent).best_tip = (bridgeResult qq Db Da pb parent).best_tip ∧
    (bridgeResult q Da Db pb parent).canonical_tip =
      (bridgeResult qq Db Da pb parent).canonical_tip ∧
    (bridgeResult q Da Db pb parent).diffs_map = (bridgeResult qq Db Da pb parent).diffs_map ∧
    (bridgeResult q Da Db pb parent).blocks_processed =
      (bridgeResult qq Db Da pb parent).blocks_processed ∧
    (bridgeResult q Da Db pb parent).indexer_store =
      (bridgeResult qq Db Da pb parent).indexer_store := by
  have hpnot : pb.state_hash ∉ q.root_branch.blocks.map Block.state_hash := by
    have hnd2 : ((q.root_branch.blocks.map Block.state_hash) ++ [pb.state_hash]).Nodup :=
      hndAll.sublist ((List.sublist_append_left _ _).trans (List.sublist_append_left _ _))
    intro hmem
    exact (List.nodup_append.mp hnd2).2.2 hmem (by simp)
  have hfr : q.root_branch.blocks.find? (fun b => b.state_hash == pb.state_hash) = none := by
    rw [List.find?_eq_none]
    intro b hbmem hbeq
    exact hpnot (List.mem_map.mpr ⟨b, hbmem, by simpa using hbeq⟩)
  have hfr2 : qq.root_branch.blocks.find? (fun b => b.state_hash == pb.state_hash) = none := by
    rw [← hrb]
    exact hfr
  have hrb1eq : bridgeRb1 q pb parent = bridgeRb1 qq pb parent := by
    unfold bridgeRb1
    rw [hrb]
  have hL1 : Branch.lookup (bridgeRb1 q pb parent) pb.state_hash =
      some (Block.ofPrecomputed pb (parent.height + 1)) := by
    unfold bridgeRb1 Branch.lookup
    dsimp only
    rw [find_append_none _ _ _ hfr]
    simp [List.find?, Block.ofPrecomputed]
  have hL1B : Branch.lookup (bridgeRb1 qq pb parent) pb.state_hash =
      some (Block.ofPrecomputed pb (parent.height + 1)) := by
    rw [← hrb1eq]
    exact hL1
  have hM1 := merge_on_blocks (bridgeRb1 q pb parent) Da pb.state_hash
    (Block.ofPrecomputed pb (parent.height + 1)) hL1 hpre1
  have hM1B := merge_on_blocks (bridgeRb1 qq pb parent) Db pb.state_hash
    (Block.ofPrecomputed pb (parent.height + 1)) hL1B hpre2
  have hL2 : Branch.lookup { bridgeRb1 q pb parent with blocks := (bridgeRb1 q pb parent).blocks ++ Da.blocks.map (fun b => { b with height := (Block.ofPrecomputed pb (parent.height + 1)).height + b.height }) } pb.state_hash = some (Block.ofPrecomputed pb (parent.height + 1)) := by
    unfold Branch.lookup
    dsimp only
    apply find_append_some
    exact hL1
  have hL2B : Branch.lookup { bridgeRb1 qq pb parent with blocks := (bridgeRb1 qq pb parent).blocks ++ Db.blocks.map (fun b => { b with height := (Block.ofPrecomputed pb (parent.height + 1)).height + b.height }) } pb.state_hash = some (Block.ofPrecomputed pb (parent.height + 1)) := by
    unfold Branch.lookup
    dsimp only
    apply find_append_some
    exact hL1B
  have hM2 := merge_on_blocks { bridgeRb1 q pb parent with blocks := (bridgeRb1 q pb parent).blocks ++ Da.blocks.map (fun b => { b with height := (Block.ofPrecomputed pb (parent.height + 1)).height + b.height }) } Db pb.state_hash (Block.ofPrecomputed pb (parent.height + 1)) hL2 hpre2
  have hM2B := merge_on_blocks { bridgeRb1 qq pb parent with blocks := (bridgeRb1 qq pb parent).blocks ++ Db.blocks.map (fun b => { b with height := (Block.ofPrecomputed pb (parent.height + 1)).height + b.height }) } Da pb.state_hash (Block.ofPrecomputed pb (parent.height + 1)) hL2B hpre1
  have hA1 : (bridgeMerged q Da Db pb parent).blocks =
      ((bridgeRb1 q pb parent).blocks ++ Da.blocks.map (fun b => { b with height := (Block.ofPrecomputed pb (parent.height + 1)).height + b.height })) ++ Db.blocks.map (fun b => { b with height := (Block.ofPrecomputed pb (parent.height + 1)).height + b.height }) := by
    unfold bridgeMerged
    rw [hM1, hM2]
  have hB1 : (bridgeMerged qq Db Da pb parent).blocks =
      ((bridgeRb1 qq pb parent).blocks ++ Db.blocks.map (fun b => { b with height := (Block.ofPrecomputed pb (parent.height + 1)).height + b.height })) ++ Da.blocks.map (fun b => { b with height := (Block.ofPrecomputed pb (parent.height + 1)).height + b.height }) := by
    unfold bridgeMerged
    rw [hM1B, hM2B]
  have hpermM : (bridgeMerged q Da Db pb parent).blocks.Perm
      (bridgeMerged qq Db Da pb parent).blocks := by
    rw [hA1, hB1, ← hrb1eq]
    rw [List.append_assoc, List.append_assoc]
    exact List.Perm.append_left _ List.perm_append_comm
  have hmapF : ∀ (l : List Block),
      (l.map (fun b => { b with height := (Block.ofPrecomputed pb (parent.height + 1)).height + b.height })).map Block.state_hash = l.map Block.state_hash := by
    intro l
    rw [List.map_map]
    rfl
  have hndM : ((bridgeMerged q Da Db pb parent).blocks.map Block.state_hash).Nodup := by
    rw [hA1]
    unfold bridgeRb1
    dsimp only
    rw [List.map_append, List.map_append, List.map_append, hmapF Da.blocks, hmapF Db.blocks]
    exact hndAll
  have hnd1 : ((bridgeRb1 q pb parent).blocks.map Block.state_hash).Nodup := by
    unfold bridgeRb1
    dsimp only
    rw [List.map_append]
    exact hndAll.sublist ((List.sublist_append_left _ _).trans (List.sublist_append_left _ _))
  have hpermMid : (bridgeRb1 q pb parent).blocks.Perm (bridgeRb1 qq pb parent).blocks := by
    rw [hrb1eq]
  have hmid := ubc_perm { q with root_branch := bridgeRb1 q pb parent }
    { qq with root_branch := bridgeRb1 qq pb parent } hqn hqn2 hpermMid hnd1 hbt hct hdm
  have hmidstore : (bridgeMid q pb parent).indexer_store = none := by
    unfold bridgeMid
    rw [ubc_none_eq { q with root_branch := bridgeRb1 q pb parent } hqn]
    exact hqn
  have hmidstoreB : (bridgeMid qq pb parent).indexer_store = none := by
    unfold bridgeMid
    rw [ubc_none_eq { qq with root_branch := bridgeRb1 qq pb parent } hqn2]
    exact hqn2
  have hmidbp : (bridgeMid q pb parent).blocks_processed = q.blocks_processed := by
    unfold bridgeMid
    rw [ubc_none_eq { q with root_branch := bridgeRb1 q pb parent } hqn]
  have hmidbpB : (bridgeMid qq pb parent).blocks_processed = qq.blocks_processed := by
    unfold bridgeMid
    rw [ubc_none_eq { qq with root_branch := bridgeRb1 qq pb parent } hqn2]
  have hfin := ubc_perm { bridgeMid q pb parent with root_branch := bridgeMerged q Da Db pb parent, dangling_branches := [] } { bridgeMid qq pb parent with root_branch := bridgeMerged qq Db Da pb parent, dangling_branches := [] } hmidstore hmidstoreB hpermM hndM hmid.1 hmid.2.1 hmid.2.2
  have hrbA : (bridgeResult q Da Db pb parent).root_branch = bridgeMerged q Da Db pb parent :=
    (ubc_pres { bridgeMid q pb parent with root_branch := bridgeMerged q Da Db pb parent, dangling_branches := [] }).1
  have hrbB : (bridgeResult qq Db Da pb parent).root_branch = bridgeMerged qq Db Da pb parent :=
    (ubc_pres { bridgeMid qq pb parent with root_branch := bridgeMerged qq Db Da pb parent, dangling_branches := [] }).1
  have hdA : (bridgeResult q Da Db pb parent).dangling_branches = [] :=
    (ubc_pres { bridgeMid q pb parent with root_branch := bridgeMerged q Da Db pb parent, dangling_branches := [] }).2.1
  have hdB : (bridgeResult qq Db Da pb parent).dangling_branches = [] :=
    (ubc_pres { bridgeMid qq pb parent with root_branch := bridgeMerged qq Db Da pb parent, dangling_branches := [] }).2.1
  have hbpA : (bridgeResult q Da Db pb parent).blocks_processed = q.blocks_processed :=
    ((ubc_pres { bridgeMid q pb parent with root_branch := bridgeMerged q Da Db pb parent, dangling_branches := [] }).2.2.1).trans hmidbp
  have hbpB : (bridgeResult qq Db Da pb parent).blocks_processed = qq.blocks_processed :=
    ((ubc_pres { bridgeMid qq pb parent with root_branch := bridgeMerged qq Db Da pb parent, dangling_branches := [] }).2.2.1).trans hmidbpB
  have hstA : (bridgeResult q Da Db pb parent).indexer_store = none := by
    unfold bridgeResult
    rw [ubc_none_eq { bridgeMid q pb parent with root_branch := bridgeMerged q Da Db pb parent, dangling_branches := [] } hmidstore]
    exact hmidstore
  have hstB : (bridgeResult qq Db Da pb parent).indexer_store = none := by
    unfold bridgeResult
    rw [ubc_none_eq { bridgeMid qq pb parent with root_branch := bridgeMerged qq Db Da pb parent, dangling_branches := [] } hmidstoreB]
    exact hmidstoreB
  have hrootA : (bridgeMerged q Da Db pb parent).root = q.root_branch.root := by
    unfold bridgeMerged
    rw [merge_on_root, merge_on_root]
    rfl
  have hrootB : (bridgeMerged qq Db Da pb parent).root = qq.root_branch.root := by
    unfold bridgeMerged
    rw [merge_on_root, merge_on_root]
    rfl
  refine ⟨?_, ?_, hdA, hdB, hfin.1, hfin.2.1, hfin.2.2, hbpA.trans (hbp.trans hbpB.symm),
    hstA.trans hstB.symm⟩
  · rw [hrbA, hrbB, hrootA, hrootB, hrb]
  · rw [hrbA, hrbB]
    exact hpermM

/-- C6: on a forest whose two dangling branches are both connected to
the root branch by a single bridge block (the bridge extends the root
branch and is the parent of both dangling roots, no hash collisions),
`add_block` of the bridge produces the same final forest regardless of
which dangling branch was inserted into the forest first: both runs
return `RootComplex`, empty the dangling set, and agree on the root
branch (same root, same blocks up to order), the best tip, the
canonical tip, the diffs map, `blocks_processed` and the store. -/
theorem C6_merge_order_independent (s : IndexerState) (D1 D2 : Branch)
    (pb : PrecomputedBlock) (parent : Block)
    (hsd : s.dangling_branches = [D1, D2])
    (hstore : s.indexer_store = none)
    (htfl : s.transition_frontier_length = none)
    (hb : s.is_length_within_root_bounds pb = true)
    (hlk : s.root_branch.lookup pb.parent_hash = some parent)
    (hrev1 : is_reverse_extension D1 pb = true)
    (hrev2 : is_reverse_extension D2 pb = true)
    (hdup1 : same_block_added_twice D1 pb = false)
    (hdup2 : same_block_added_twice D2 pb = false)
    (hnd : ((s.root_branch.blocks.map Block.state_hash ++ [pb.state_hash]) ++
        D1.blocks.map Block.state_hash ++ D2.blocks.map Block.state_hash).Nodup) :
    (s.add_block pb).2 = Except.ok ExtensionType.RootComplex ∧
    (({ s with dangling_branches := [D2, D1] } : IndexerState).add_block pb).2 =
      Except.ok ExtensionType.RootComplex ∧
    (s.add_block pb).1.root_branch.root =
      (({ s with dangling_branches := [D2, D1] } : IndexerState).add_block pb).1.root_branch.root ∧
    ((s.add_block pb).1.root_branch.blocks).Perm
      ((({ s with dangling_branches := [D2, D1] } : IndexerState).add_block pb).1.root_branch.blocks) ∧
    (s.add_block pb).1.dangling_branches = [] ∧
    (({ s with dangling_branches := [D2, D1] } : IndexerState).add_block pb).1.dangling_branches = [] ∧
    (s.add_block pb).1.best_tip =
      (({ s with dangling_branches := [D2, D1] } : IndexerState).add_block pb).1.best_tip ∧
    (s.add_block pb).1.canonical_tip =
      (({ s with dangling_branches := [D2, D1] } : IndexerState).add_block pb).1.canonical_tip ∧
    (s.add_block pb).1.diffs_map =
      (({ s with dangling_branches := [D2, D1] } : IndexerState).add_block pb).1.diffs_map ∧
    (s.add_block pb).1.blocks_processed =
      (({ s with dangling_branches := [D2, D1] } : IndexerState).add_block pb).1.blocks_processed ∧
    (s.add_block pb).1.indexer_store =
      (({ s with dangling_branches := [D2, D1] } : IndexerState).add_block pb).1.indexer_store := by
  have hA := add_block_bridge s D1 D2 pb parent hsd hstore htfl hb hlk hrev1 hrev2 hdup1 hdup2
  have hB := add_block_bridge ({ s with dangling_branches := [D2, D1] } : IndexerState)
    D2 D1 pb parent rfl hstore htfl hb hlk hrev2 hrev1 hdup2 hdup1
  have hpre1 : (D1.root_block.parent_hash == pb.state_hash) = true := by
    have he : pb.state_hash = D1.root_block.parent_hash := by
      simpa [is_reverse_extension] using hrev1
    rw [← he]
    simp
  have hpre2 : (D2.root_block.parent_hash == pb.state_hash) = true := by
    have he : pb.state_hash = D2.root_block.parent_hash := by
      simpa [is_reverse_extension] using hrev2
    rw [← he]
    simp
  have hcomp := bridgeResult_components
    { s with blocks_processed := s.blocks_processed + 1 }
    { s with dangling_branches := [D2, D1], blocks_processed := s.blocks_processed + 1 }
    D1 D2 pb parent hstore hstore rfl rfl rfl rfl rfl hnd hpre1 hpre2
  rw [hA, hB]
  exact ⟨rfl, rfl, hcomp.1, hcomp.2.1, hcomp.2.2.1, hcomp.2.2.2.1, hcomp.2.2.2.2.1,
    hcomp.2.2.2.2.2.1, hcomp.2.2.2.2.2.2.1, hcomp.2.2.2.2.2.2.2.1, hcomp.2.2.2.2.2.2.2.2⟩

/-- Witness for `C6_merge_order_independent`: the bridge block `1`
(child of root `100`, parent of the dangling roots `10` and `20`)
yields, for the dangling orders `[10-branch, 20-branch]` and
`[20-branch, 10-branch]`, root branches with the same blocks up to
order and the same best tip. -/
theorem C6_witness :
    ((((exBridgeState [exBridgeD1, exBridgeD2]).add_block exBridgePB).1.root_branch.blocks).Perm
      ((({ exBridgeState [exBridgeD1, exBridgeD2] with
          dangling_branches := [exBridgeD2, exBridgeD1] } :
        IndexerState).add_block exBridgePB).1.root_branch.blocks)) ∧
    (((exBridgeState [exBridgeD1, exBridgeD2]).add_block exBridgePB).1.best_tip =
      (({ exBridgeState [exBridgeD1, exBridgeD2] with
          dangling_branches := [exBridgeD2, exBridgeD1] } :
        IndexerState).add_block exBridgePB).1.best_tip) := by
  have h := C6_merge_order_independent (exBridgeState [exBridgeD1, exBridgeD2])
    exBridgeD1 exBridgeD2 exBridgePB (mkRootBlock 100 (some 1))
    (by decide) (by decide) (by decide) (by decide) (by decide)
    (by decide) (by decide) (by decide) (by decide) (by decide)
  exact ⟨h.2.2.2.1, h.2.2.2.2.2.2.1⟩

end MinaIndexer
